import Mathlib

/-!
# Verification of the Report engine (`report/report.py`)

A shallow embedding of the `Report` class: its separator inference
(`_get_separators`), entry alignment (`_align_separator`), report generation
(`generate_report`), total calculation (`calculate_total`), price synthesis
(`_price` / `_cents`) and construction (`__init__`).

Modelling conventions:
* Python strings are Lean `String`s; character-level work happens on `.data`
  (`List Char`).
* Python's IEEE floats are modelled by exact rationals (`ℚ`); `round(x, 2)`
  is modelled by round-half-to-even on exact values, and the `f"{x}"`
  rendering of a two-decimal float is modelled by `centsRepr` (shortest
  decimal form, e.g. `2.5` not `2.50`, `13.0` not `13`), which matches
  CPython's rendering on such values.
* Randomness (`randint`, `choice`) is modelled by passing the drawn values
  as explicit arguments.
* File I/O is modelled by passing the file's text content / line list.
* Python exceptions are modelled by `Except PyError`; an uncaught exception
  is an `Except.error` result.
-/

/-- Kinds of Python exception distinguished by the embedded code. -/
inductive PyError where
  /-- The `Exception` raised by `_get_separators` when a placeholder is
  missing (the spec's `MissingPlaceholderError`). -/
  | missingPlaceholder
  /-- `IndexError` (e.g. `[][-1]`). -/
  | indexError
  /-- `ValueError` (failed unpacking, `float()` on a bad literal, ...). -/
  | valueError
  /-- `KeyError` (e.g. `str.format` referencing an unknown field). -/
  | keyError
  deriving DecidableEq, Repr

instance exceptDecEq {ε α : Type} [DecidableEq ε] [DecidableEq α] :
    DecidableEq (Except ε α) := fun x y =>
  match x, y with
  | .ok a, .ok b =>
    if h : a = b then .isTrue (by subst h; rfl)
    else .isFalse (fun hh => h (Except.ok.inj hh))
  | .error a, .error b =>
    if h : a = b then .isTrue (by subst h; rfl)
    else .isFalse (fun hh => h (Except.error.inj hh))
  | .ok _, .error _ => .isFalse (fun hh => Except.noConfusion hh)
  | .error _, .ok _ => .isFalse (fun hh => Except.noConfusion hh)

/-- Python's whitespace class for `str.split()` / `str.strip()`
(ASCII fragment: space, tab, newline, carriage return, form feed,
vertical tab). -/
def pyWs (c : Char) : Bool :=
  c = ' ' || c = '\t' || c = '\n' || c = '\r' || c = '\x0c' || c = '\x0b'

/-- `leads pat l` is true when `pat` is an initial segment of `l`
(the test a left-to-right scan performs at each position when looking
for an occurrence of `pat`). -/
def leads : List Char → List Char → Bool
  | [], _ => true
  | _ :: _, [] => false
  | a :: as, b :: bs => a = b && leads as bs

/-- Index of the first occurrence of `pat` in `s` (leftmost match of a
left-to-right scan), as Python's `str.find`/`str.split` would locate it. -/
def findOcc (pat : List Char) : List Char → Option Nat
  | [] => if leads pat [] then some 0 else none
  | c :: rest => if leads pat (c :: rest) then some 0 else (findOcc pat rest).map (· + 1)

/-- Fuelled splitter: repeatedly cut at the first occurrence of `pat`.
With `fuel ≥ s.length` (and `pat ≠ []`) this is exactly Python's
`s.split(pat)`; fuel only makes the recursion structural. -/
def splitParts (pat : List Char) : Nat → List Char → List (List Char)
  | 0, s => [s]
  | fuel + 1, s =>
    match findOcc pat s with
    | none => [s]
    | some p => s.take p :: splitParts pat fuel (s.drop (p + pat.length))

/-- Python's `s.split(pat)` for a nonempty separator `pat`
(character-list level). -/
def pySplitAll (pat s : List Char) : List (List Char) :=
  splitParts pat s.length s

/-- Helper for `words`: accumulate the current (reversed) word while
scanning left to right. -/
def wordsAux : List Char → List Char → List (List Char)
  | [], acc => if acc = [] then [] else [acc.reverse]
  | c :: rest, acc =>
    if pyWs c then
      if acc = [] then wordsAux rest [] else acc.reverse :: wordsAux rest []
    else wordsAux rest (c :: acc)

/-- Python's `s.split()` (no argument): the maximal whitespace-delimited
words of `s`, left to right, with no empty strings. -/
def words (s : String) : List String :=
  (wordsAux s.data []).map String.mk

/-- `item_fmt.rsplit(maxsplit=2)` from `_get_separators`: split off at most
two words from the right (consuming the whitespace runs that delimit them);
whatever precedes the second-from-right word is kept verbatim as a single
leading chunk (dropped when it is empty or all whitespace). -/
def rsplitTwo (s : String) : List String :=
  let r := s.data.reverse
  let r1 := r.dropWhile pyWs
  let w1 := r1.takeWhile (fun c => !pyWs c)
  let t1 := r1.dropWhile (fun c => !pyWs c)
  let r2 := t1.dropWhile pyWs
  let w2 := r2.takeWhile (fun c => !pyWs c)
  let t2 := r2.dropWhile (fun c => !pyWs c)
  let chunk := t2.dropWhile pyWs
  if w1 = [] then []
  else if w2 = [] then [String.mk w1.reverse]
  else if chunk = [] then [String.mk w2.reverse, String.mk w1.reverse]
  else [String.mk chunk.reverse, String.mk w2.reverse, String.mk w1.reverse]

/-- `Report._get_separators`: rsplit the line format with `maxsplit=2`,
require both `"{item}"` and `"{price}"` among the resulting words (else the
`Exception` the spec calls `MissingPlaceholderError`), and return the slice
of words strictly between their (first) positions. -/
def getSeparators (fmt : String) : Except PyError (List String) :=
  let ws := rsplitTwo fmt
  if "{item}" ∈ ws ∧ "{price}" ∈ ws then
    let i := List.indexOf "{item}" ws
    let j := List.indexOf "{price}" ws
    let lo := min i j
    let hi := max i j
    .ok ((ws.drop (lo + 1)).take (hi - (lo + 1)))
  else .error .missingPlaceholder

/-- Specification-side description used by claim C1: the words strictly
between the first occurrence of either placeholder and the following first
occurrence of the other placeholder. -/
def wordsBetween (ws : List String) : List String :=
  match ws.dropWhile (fun w => !(w == "{item}" || w == "{price}")) with
  | [] => []
  | first :: after =>
    let other := if first == "{item}" then "{price}" else "{item}"
    after.takeWhile (fun w => !(w == other))

/-- `' '.join(...)` on the separator words. -/
def joinSp : List String → String
  | [] => ""
  | [x] => x
  | x :: y :: ys => x ++ " " ++ joinSp (y :: ys)

/-- `'\n'.join(...)` on entry lines / template lines. -/
def joinNl : List String → String
  | [] => ""
  | [x] => x
  | x :: y :: ys => x ++ "\n" ++ joinNl (y :: ys)

/-- Python `str.strip()` on a character list. -/
def stripWsL (l : List Char) : List Char :=
  ((l.dropWhile pyWs).reverse.dropWhile pyWs).reverse

/-- Python `str.strip()`. -/
def stripWs (s : String) : String := String.mk (stripWsL s.data)

/-- Python `str.strip('$')` on a character list. -/
def stripDollarL (l : List Char) : List Char :=
  ((l.dropWhile (· == '$')).reverse.dropWhile (· == '$')).reverse

/-- Python `str.startswith('$')`. -/
def startsDollar (s : String) : Bool :=
  match s.data with
  | [] => false
  | c :: _ => c = '$'

/-- ASCII decimal digit test. -/
def isDig (c : Char) : Bool := '0' ≤ c && c ≤ '9'

/-- Value of a list of decimal digit characters (most significant first). -/
def digitsToNat (l : List Char) : Nat :=
  l.foldl (fun acc c => 10 * acc + (c.toNat - 48)) 0

/-- Unsigned core of Python `float(...)` on the already-stripped literal:
`digits`, `digits.digits`, `digits.` or `.digits`.  Exponents, `inf`/`nan`
and digit underscores are outside the model (they never arise from the
fixed-point price format this program writes or tests). -/
def pyFloatCore (cs : List Char) : Option ℚ :=
  let ip := cs.takeWhile isDig
  let rest := cs.dropWhile isDig
  match rest with
  | [] => if ip.isEmpty then none else some (mkRat (digitsToNat ip) 1)
  | '.' :: frac =>
    if frac.all isDig && !(ip.isEmpty && frac.isEmpty) then
      some (mkRat (digitsToNat ip * 10 ^ frac.length + digitsToNat frac) (10 ^ frac.length))
    else none
  | _ => none

/-- Python `float(s)` (see `pyFloatCore` for the modelled grammar);
`none` is the uncaught `ValueError`. -/
def pyFloat? (s : String) : Option ℚ :=
  match (stripWs s).data with
  | '-' :: rest => (pyFloatCore rest).map (fun q => -q)
  | '+' :: rest => pyFloatCore rest
  | cs => pyFloatCore cs

/-- Round a rational to the nearest integer, ties to even: the exact-value
model of Python's `round` applied to `total * 100`.  Written with integer
arithmetic only: `f = ⌊q⌋` and `rem2 = 2 · den · (q - f) ∈ [0, 2·den)`. -/
def roundHalfEven (q : ℚ) : ℤ :=
  let f := Int.fdiv q.num q.den
  let rem2 := 2 * (q.num - f * (q.den : ℤ))
  if rem2 < (q.den : ℤ) then f
  else if (q.den : ℤ) < rem2 then f + 1
  else if f % 2 = 0 then f else f + 1

/-- `q * 100`, written so that it reduces by pure integer computation. -/
def scaleCents (q : ℚ) : ℚ := mkRat (q.num * 100) q.den

/-- Two-digit zero-padded rendering of `n < 100`. -/
def pad2 (n : Nat) : String :=
  if n < 10 then "0" ++ Nat.repr n else Nat.repr n

/-- Decimal rendering of `n` cents as Python renders the float `n / 100`
after `round(_, 2)`: trailing zeros dropped but at least one fractional
digit kept (`250 ↦ "2.5"`, `234 ↦ "2.34"`, `207 ↦ "2.07"`, `0 ↦ "0.0"`). -/
def natCents (n : Nat) : String :=
  let d := n / 100
  let r := n % 100
  if r = 0 then Nat.repr d ++ ".0"
  else if r % 10 = 0 then Nat.repr d ++ "." ++ Nat.repr (r / 10)
  else Nat.repr d ++ "." ++ pad2 r

/-- Signed version of `natCents`. -/
def centsRepr (z : ℤ) : String :=
  if z < 0 then "-" ++ natCents z.natAbs else natCents z.toNat

/-- The `line, price = line.split(separator)` step of `calculate_total`:
`some` exactly when the split yields two parts (separator occurs exactly
once); `none` is the caught `ValueError` (including the empty-separator
`ValueError` raised by `str.split('')`). -/
def pySplit2? (sep line : String) : Option (String × String) :=
  if sep.data = [] then none
  else
    match pySplitAll sep.data line.data with
    | [l, r] => some (String.mk l, String.mk r)
    | _ => none

/-- Proof-side accessor: the two parts of a split that is known to have
exactly two parts (`([], [])` otherwise; only used under that knowledge). -/
def split2 (sep e : String) : List Char × List Char :=
  match pySplitAll sep.data e.data with
  | [l, r] => (l, r)
  | _ => ([], [])

/-- Which of the two parts `calculate_total` treats as the price:
the left part when it starts with `'$'`, otherwise the right part. -/
def pricePart (l r : String) : String := if startsDollar l then l else r

/-- `float(price.strip().strip('$'))` without the `float` call:
the cleaned-up price literal is parsed by `pyFloat?`. -/
def parsePrice (p : String) : Option ℚ :=
  pyFloat? (String.mk (stripDollarL (stripWsL p.data)))

/-- One iteration of the `for line in content` loop of `calculate_total`.
A failed split/unpack is caught (`continue`); a failed `float(...)` is NOT
inside the `try` block in the source, so it aborts the whole call. -/
def calcStep (sep : String) (acc : ℚ) (line : String) : Except PyError ℚ :=
  match pySplit2? sep line with
  | none => .ok acc
  | some lr =>
    match parsePrice (pricePart lr.1 lr.2) with
    | none => .error .valueError
    | some q => .ok (acc + q)

/-- The price contributed by one line (`none` when the line is skipped). -/
def lineVal? (sep line : String) : Option ℚ :=
  (pySplit2? sep line).bind fun lr => parsePrice (pricePart lr.1 lr.2)

/-- Decidable form of "this line cannot abort the scan": either it does not
split into exactly two parts, or its price part parses. -/
def lineParses (sep line : String) : Bool :=
  match pySplit2? sep line with
  | none => true
  | some lr => (parsePrice (pricePart lr.1 lr.2)).isSome

/-- `Report.calculate_total`, over the file's lines. -/
def calcTotal (fmt : String) (lines : List String) : Except PyError String := do
  let seps ← getSeparators fmt
  let sep := joinSp seps
  let total ← lines.foldlM (calcStep sep) (0 : ℚ)
  return "$" ++ centsRepr (roundHalfEven (scaleCents total))

/-- Scanner state for the Python `str.format` model. -/
inductive FmtMode where
  /-- Copying literal text. -/
  | normal
  /-- Just read a `'{'`. -/
  | openB
  /-- Inside a replacement field; `acc` is the reversed name so far. -/
  | field (acc : List Char)
  /-- Just read a `'}'`. -/
  | closeB

/-- One-pass scanner for Python `str.format(**fields)` restricted to plain
named fields: `{{`/`}}` escapes, `{name}` replaced by its value (values are
not re-scanned), unknown names are `KeyError`, an unmatched brace is
`ValueError`.  Format specs / conversions / positional fields
(`{x:…}`, `{x!r}`, `{}`) are outside the model; no claim exercises them. -/
def fmtSM (fields : List (String × String)) : FmtMode → List Char → Except PyError (List Char)
  | .normal, [] => .ok []
  | .openB, [] => .error .valueError
  | .field _, [] => .error .valueError
  | .closeB, [] => .error .valueError
  | .normal, c :: rest =>
    if c = '{' then fmtSM fields .openB rest
    else if c = '}' then fmtSM fields .closeB rest
    else (fmtSM fields .normal rest).map (fun t => c :: t)
  | .openB, c :: rest =>
    if c = '{' then (fmtSM fields .normal rest).map (fun t => '{' :: t)
    else if c = '}' then
      match List.lookup "" fields with
      | some v => (fmtSM fields .normal rest).map (fun t => v.data ++ t)
      | none => .error .keyError
    else fmtSM fields (.field [c]) rest
  | .field acc, c :: rest =>
    if c = '}' then
      match List.lookup (String.mk acc.reverse) fields with
      | some v => (fmtSM fields .normal rest).map (fun t => v.data ++ t)
      | none => .error .keyError
    else fmtSM fields (.field (c :: acc)) rest
  | .closeB, c :: rest =>
    if c = '}' then (fmtSM fields .normal rest).map (fun t => '}' :: t)
    else .error .valueError

/-- Python `s.format(**fields)` (see `fmtSM`). -/
def pyFormatFields (fields : List (String × String)) (s : String) : Except PyError String :=
  (fmtSM fields .normal s.data).map String.mk

/-- Python dict assignment `d[k] = v` on an association list with unique
keys: replace in place or append. -/
def setKey (l : List (String × String)) (k v : String) : List (String × String) :=
  if l.any (fun kv => kv.1 == k) then l.map (fun kv => if kv.1 == k then (k, v) else kv)
  else l ++ [(k, v)]

/-- Python substring test `pat in s`. -/
def occursIn (pat s : String) : Bool := (findOcc pat.data s.data).isSome

/-- `Report._align_separator`: take the LAST separator word (`IndexError`
when there is none), split every entry on it (the unpacking in the
`items = [item for item, price in entries]` comprehension raises an
uncaught `ValueError` unless every split has exactly two parts), then pad
each left part to the longest left part and reassemble. -/
def alignSeparator (fmt : String) (es : List String) : Except PyError (List String) := do
  let seps ← getSeparators fmt
  match seps.getLast? with
  | none => .error .indexError
  | some sep => do
    let pairs ← es.mapM (fun e =>
      match pySplitAll sep.data e.data with
      | [l, r] => Except.ok (l, r)
      | _ => (Except.error .valueError : Except PyError (List Char × List Char)))
    let items := pairs.map Prod.fst
    let longest := (items.map List.length).foldl max 0
    return pairs.map (fun lr =>
      String.mk (lr.1 ++ List.replicate (longest - lr.1.length) ' ' ++ sep.data ++ lr.2))

/-- The engine's configuration state (`Report`'s attributes). -/
structure ReportState where
  inventory : List (String × List String)
  entries : Nat
  autoAlign : Bool
  itemFmt : String
  template : List String

/-- `Report.generate_report`, reduced to the produced file content.
`draws` are the item/price pairs produced by `_random_item_and_price` for
the `range(self.entries)` iterations (randomness as an oracle); `fields`
are the `**fmt` keyword arguments, `now` the rendered `datetime.now()`.
An `Except.error` is an uncaught exception: no output content exists. -/
def generateContent (st : ReportState) (draws : List (String × String))
    (fields : List (String × String)) (now : String) : Except PyError String := do
  let es ← draws.mapM (fun d => pyFormatFields [("item", d.1), ("price", d.2)] st.itemFmt)
  let es ← if st.autoAlign then alignSeparator st.itemFmt es else pure es
  let fields := setKey fields "report" (joinNl es)
  let finalOutput := joinNl st.template
  let fields :=
    if occursIn "{name}" finalOutput && !(fields.any (fun kv => kv.1 == "name")) then
      setKey fields "name" "_DefaultName"
    else fields
  let fields :=
    if occursIn "{datetime}" finalOutput && !(fields.any (fun kv => kv.1 == "datetime")) then
      setKey fields "datetime" now
    else fields
  pyFormatFields fields finalOutput

/-- The lines of a written file as `calculate_total`'s `readlines` sees
them.  We split on `'\n'` without keeping the newline on each line: the
inferred separator never contains a newline and the price part is passed
through `strip()`, so this is behavior-equivalent to `readlines`. -/
def linesOf (s : String) : List String := (pySplitAll ['\n'] s.data).map String.mk

/-- `Report._cents`: render the draw `c` of `randint(0, 99)`, left-padding
a single digit with `'0'`. -/
def cents (c : Nat) : String :=
  let s := Nat.repr c
  if s.length = 2 then s else "0" ++ s

/-- `Report._price`: the `prices` dict built from the three `randint`
draws (`d1` for tier `"$"`, `d2` for `"$$"`, `d3` for `"$$$"`), indexed by
`key`; `none` is the `KeyError` for any other key. -/
def price (key : String) (d1 d2 d3 c : Nat) : Option String :=
  let prices : List (String × String) :=
    [("$", Nat.repr d1), ("$$", Nat.repr d2), ("$$$", Nat.repr d3)]
  (List.lookup key prices).map (fun dollar => "$" ++ dollar ++ "." ++ cents c)

/-- Python `inventory.pop(k, dflt)` on an association list with unique
keys: return the value (or the default) and the list with the key removed. -/
def popKey (k : String) (dflt : List String) (l : List (String × List String)) :
    List String × List (String × List String) :=
  match List.lookup k l with
  | some v => (v, l.eraseP (fun kv => kv.1 == k))
  | none => (dflt, l)

/-- `Report.__init__`.  `defaultInv` and `defaultTemplate` stand for the
bundled `_default_inventory.json` / `_default_template.txt` resources
(data files outside the embedded source); their content never matters to
the claims proved here.  The second component of the result is the final
state of the CALLER-supplied `inventory` dict: when it is non-empty the
constructor pops the tier keys out of it directly. -/
def initReport (inv : List (String × List String)) (n : Nat)
    (defaultInv : List (String × List String)) (defaultTemplate : List String) :
    ReportState × List (String × List String) :=
  let src := if inv = [] then defaultInv else inv
  let p1 := popKey "$" ["_Default$Item"] src
  let p2 := popKey "$$" ["_Default$$Item"] p1.2
  let p3 := popKey "$$$" ["_Default$$$Item"] p2.2
  ({ inventory := [("$", p1.1), ("$$", p2.1), ("$$$", p3.1)],
     entries := n, autoAlign := true, itemFmt := "{item} = {price}",
     template := defaultTemplate },
   if inv = [] then inv else p3.2)

/-! ## Sanity checks of the embedding on concrete inputs -/

theorem pySplitAll_example1 : pySplitAll "=".data "Gum = $2.50".data
    = ["Gum ".data, " $2.50".data] := by decide

theorem pySplitAll_example2 : pySplitAll "a".data "aa".data
    = ["".data, "".data, "".data] := by decide

theorem rsplitTwo_example1 : rsplitTwo "{item} = {price}"
    = ["{item}", "=", "{price}"] := by decide

theorem rsplitTwo_example2 : rsplitTwo "a {item} = {price}"
    = ["a {item}", "=", "{price}"] := by decide

theorem rsplitTwo_example3 : rsplitTwo "  a   b c  " = ["  a", "b", "c"] := by decide

theorem words_example : words "  a   b c  " = ["a", "b", "c"] := by decide

theorem getSeparators_example1 : getSeparators "{price} -> {item}" = .ok ["->"] := by decide

theorem getSeparators_example2 : getSeparators "{item} {price}" = .ok [] := by decide

theorem pyFloat_example : pyFloat? " 2.50\n" = some (mkRat 5 2) := by decide

theorem natCents_example : (natCents 250, natCents 234, natCents 207, natCents 0)
    = ("2.5", "2.34", "2.07", "0.0") := by decide

/-! ## Basic scanning lemmas -/

theorem string_mk_data (s : String) : String.mk s.data = s := by
  cases s
  rfl

theorem takeWhile_append_of_all {p : Char → Bool} (u v : List Char)
    (hu : ∀ c ∈ u, p c = true) : (u ++ v).takeWhile p = u ++ v.takeWhile p := by
  induction u with
  | nil => simp
  | cons c u ih =>
    have hc : p c = true := hu c (List.mem_cons_self c u)
    simp only [List.cons_append, List.takeWhile_cons, hc, if_true]
    rw [ih (fun d hd => hu d (List.mem_cons_of_mem c hd))]

theorem dropWhile_append_of_all {p : Char → Bool} (u v : List Char)
    (hu : ∀ c ∈ u, p c = true) : (u ++ v).dropWhile p = v.dropWhile p := by
  induction u with
  | nil => simp
  | cons c u ih =>
    have hc : p c = true := hu c (List.mem_cons_self c u)
    simp only [List.cons_append, List.dropWhile_cons, hc, if_true]
    exact ih (fun d hd => hu d (List.mem_cons_of_mem c hd))

theorem takeWhile_cons_of_neg {p : Char → Bool} (c : Char) (l : List Char)
    (hc : p c = false) : (c :: l).takeWhile p = [] := by
  simp [List.takeWhile_cons, hc]

theorem dropWhile_cons_of_neg {p : Char → Bool} (c : Char) (l : List Char)
    (hc : p c = false) : (c :: l).dropWhile p = c :: l := by
  simp [List.dropWhile_cons, hc]

theorem leads_iff_exists : ∀ (pat l : List Char), leads pat l = true ↔ ∃ t, l = pat ++ t
  | [], l => by simp [leads]
  | _ :: _, [] => by
    simp only [leads]
    constructor
    · intro h
      exact Bool.noConfusion h
    · rintro ⟨t, ht⟩
      exact List.noConfusion ht
  | a :: as, b :: bs => by
    simp only [leads, Bool.and_eq_true, decide_eq_true_eq, List.cons_append, List.cons.injEq]
    rw [leads_iff_exists as bs]
    constructor
    · rintro ⟨rfl, t, rfl⟩
      exact ⟨t, rfl, rfl⟩
    · rintro ⟨t, rfl, rfl⟩
      exact ⟨rfl, t, rfl⟩

theorem leads_self_append (pat t : List Char) : leads pat (pat ++ t) = true := by
  rw [leads_iff_exists]
  exact ⟨t, rfl⟩

theorem leads_nil_right {pat : List Char} (h : pat ≠ []) : leads pat [] = false := by
  cases pat with
  | nil => exact absurd rfl h
  | cons a as => rfl

theorem leads_append_left {pat : List Char} : ∀ (u v w : List Char),
    pat.length ≤ u.length → leads pat (u ++ v) = leads pat (u ++ w) := by
  induction pat with
  | nil => intro u v w _; rfl
  | cons a as ih =>
    intro u v w h
    cases u with
    | nil => simp at h
    | cons b bs =>
      simp only [List.cons_append, leads, List.append_eq]
      rw [ih bs v w (Nat.le_of_succ_le_succ (by simpa using h))]

theorem leads_cross_mem : ∀ (pat u : List Char) (c : Char) (z : List Char),
    leads pat (u ++ c :: z) = true → u.length < pat.length → c ∈ pat
  | [], u, c, z, _, hlen => by simp at hlen
  | p :: ps, [], c, z, h, _ => by
    simp only [List.nil_append, leads, Bool.and_eq_true, decide_eq_true_eq] at h
    rcases h with ⟨rfl, -⟩
    exact List.mem_cons_self _ _
  | p :: ps, b :: bs, c, z, h, hlen => by
    simp only [List.cons_append, leads, Bool.and_eq_true, decide_eq_true_eq] at h
    exact List.mem_cons_of_mem _
      (leads_cross_mem ps bs c z h.2 (Nat.lt_of_succ_lt_succ hlen))

theorem findOcc_nil {pat : List Char} (h : pat ≠ []) : findOcc pat [] = none := by
  unfold findOcc
  rw [leads_nil_right h]
  rfl

theorem findOcc_cons (pat : List Char) (c : Char) (rest : List Char) :
    findOcc pat (c :: rest)
      = if leads pat (c :: rest) = true then some 0
        else (findOcc pat rest).map (· + 1) := rfl

theorem findOcc_none_iff {pat : List Char} (hpat : pat ≠ []) :
    ∀ s : List Char, (findOcc pat s = none ↔ ∀ p, leads pat (s.drop p) = false) := by
  intro s
  induction s with
  | nil =>
    constructor
    · intro _ p
      rw [List.drop_nil]
      exact leads_nil_right hpat
    · intro _
      exact findOcc_nil hpat
  | cons c rest ih =>
    rw [findOcc_cons]
    by_cases hl : leads pat (c :: rest) = true
    · rw [if_pos hl]
      constructor
      · intro h
        exact Option.noConfusion h
      · intro h
        exact absurd hl (by simpa using h 0)
    · rw [if_neg hl, Option.map_eq_none']
      rw [ih]
      constructor
      · intro h p
        cases p with
        | zero => exact Bool.not_eq_true _ ▸ (by simpa using hl)
        | succ p => rw [List.drop_succ_cons]; exact h p
      · intro h p
        rw [← List.drop_succ_cons (l := rest) (n := p)]
        exact h (p + 1)

theorem findOcc_some {pat : List Char} :
    ∀ (s : List Char) (p : Nat), findOcc pat s = some p →
      leads pat (s.drop p) = true ∧ ∀ q, q < p → leads pat (s.drop q) = false := by
  intro s
  induction s with
  | nil =>
    intro p h
    unfold findOcc at h
    by_cases hl : leads pat [] = true
    · rw [if_pos hl] at h
      cases h
      exact ⟨hl, fun q hq => absurd hq (Nat.not_lt_zero q)⟩
    · rw [if_neg hl] at h
      exact Option.noConfusion h
  | cons c rest ih =>
    intro p h
    rw [findOcc_cons] at h
    by_cases hl : leads pat (c :: rest) = true
    · rw [if_pos hl] at h
      cases h
      exact ⟨hl, fun q hq => absurd hq (Nat.not_lt_zero q)⟩
    · rw [if_neg hl, Option.map_eq_some'] at h
      rcases h with ⟨a, ha, rfl⟩
      rcases ih a ha with ⟨h1, h2⟩
      refine ⟨by rwa [List.drop_succ_cons], ?_⟩
      intro q hq
      cases q with
      | zero => simpa using hl
      | succ q => rw [List.drop_succ_cons]; exact h2 q (Nat.lt_of_succ_lt_succ hq)

theorem findOcc_append_self {pat : List Char} (hpat : pat ≠ []) :
    ∀ (x y : List Char),
      (∀ p, p < x.length → leads pat ((x ++ pat ++ y).drop p) = false) →
      findOcc pat (x ++ pat ++ y) = some x.length := by
  intro x
  induction x with
  | nil =>
    intro y _
    cases pat with
    | nil => exact absurd rfl hpat
    | cons a as =>
      rw [List.nil_append]
      have h2 : (a :: as) ++ y = a :: (as ++ y) := rfl
      rw [h2, findOcc_cons, ← h2, if_pos (leads_self_append (a :: as) y)]
      rfl
  | cons c x ih =>
    intro y hx
    have h0 : ¬ leads pat (c :: (x ++ pat ++ y)) = true := by
      have h1 := hx 0 (Nat.succ_pos _)
      rw [List.drop_zero, List.cons_append, List.cons_append, List.append_assoc] at h1
      simp [h1]
    show findOcc pat (c :: (x ++ pat ++ y)) = some (x.length + 1)
    rw [findOcc_cons, if_neg h0]
    rw [ih y (fun p hp => by simpa using hx (p + 1) (Nat.succ_lt_succ hp))]
    rfl

theorem splitParts_ne_nil (pat : List Char) :
    ∀ (fuel : Nat) (s : List Char), splitParts pat fuel s ≠ [] := by
  intro fuel s
  cases fuel with
  | zero => simp [splitParts]
  | succ fuel =>
    unfold splitParts
    cases findOcc pat s <;> simp

theorem splitParts_noOcc {pat : List Char} {s : List Char} (h : findOcc pat s = none) :
    ∀ fuel, splitParts pat fuel s = [s] := by
  intro fuel
  cases fuel with
  | zero => rfl
  | succ fuel =>
    unfold splitParts
    rw [h]

/-! ## Splitting on a separator: the two-part characterisation -/

theorem splitParts_cons_of_some {pat s : List Char} {p : Nat}
    (h : findOcc pat s = some p) (fuel : Nat) :
    splitParts pat (fuel + 1) s = s.take p :: splitParts pat fuel (s.drop (p + pat.length)) := by
  conv_lhs => unfold splitParts
  rw [h]

theorem length_pos_of_ne_nil {l : List Char} (h : l ≠ []) : 1 ≤ l.length := by
  cases l with
  | nil => exact absurd rfl h
  | cons a as => simp

theorem splitParts_pair {pat : List Char} (hpat : pat ≠ []) (x y : List Char)
    (hx : ∀ p, p < x.length → leads pat ((x ++ pat ++ y).drop p) = false)
    (hy : findOcc pat y = none) :
    ∀ fuel, 1 ≤ fuel → splitParts pat fuel (x ++ pat ++ y) = [x, y] := by
  intro fuel hfuel
  cases fuel with
  | zero => exact absurd hfuel (by simp)
  | succ fuel =>
    rw [splitParts_cons_of_some (findOcc_append_self hpat x y hx) fuel]
    congr 1
    · rw [List.append_assoc]
      exact List.take_left x (pat ++ y)
    · rw [show x.length + pat.length = (x ++ pat).length from (List.length_append x pat).symm]
      rw [List.drop_left (x ++ pat) y]
      exact splitParts_noOcc hy fuel

theorem pySplitAll_pair {pat x y : List Char} (hpat : pat ≠ [])
    (hx : ∀ p, p < x.length → leads pat ((x ++ pat ++ y).drop p) = false)
    (hy : findOcc pat y = none) :
    pySplitAll pat (x ++ pat ++ y) = [x, y] := by
  apply splitParts_pair hpat x y hx hy
  have := length_pos_of_ne_nil hpat
  simp only [List.length_append]
  omega

theorem splitParts_eq_single {pat : List Char} (hpat : pat ≠ []) :
    ∀ (fuel : Nat) (s z : List Char), s.length ≤ fuel →
      splitParts pat fuel s = [z] → z = s ∧ findOcc pat s = none := by
  intro fuel
  cases fuel with
  | zero =>
    intro s z hle h
    have hs : s = [] := List.eq_nil_of_length_eq_zero (Nat.le_zero.1 hle)
    subst hs
    have hz : z = [] := by simpa [splitParts] using h.symm
    exact ⟨hz, findOcc_nil hpat⟩
  | succ fuel =>
    intro s z hle h
    cases hf : findOcc pat s with
    | none =>
      rw [splitParts_noOcc hf] at h
      exact ⟨(List.cons.inj h).1.symm, rfl⟩
    | some p =>
      rw [splitParts_cons_of_some hf fuel] at h
      exact absurd (List.cons.inj h).2 (splitParts_ne_nil pat fuel _)

theorem splitParts_eq_pair {pat : List Char} (hpat : pat ≠ []) :
    ∀ (fuel : Nat) (s l r : List Char), s.length ≤ fuel →
      splitParts pat fuel s = [l, r] →
      s = l ++ pat ++ r ∧ (∀ p, p < l.length → leads pat (s.drop p) = false) ∧
        findOcc pat r = none := by
  intro fuel
  cases fuel with
  | zero =>
    intro s l r _ h
    exfalso
    simp [splitParts] at h
  | succ fuel =>
    intro s l r hle h
    cases hf : findOcc pat s with
    | none =>
      rw [splitParts_noOcc hf] at h
      exact absurd (List.cons.inj h).2 (by simp)
    | some p =>
      rw [splitParts_cons_of_some hf fuel] at h
      obtain ⟨h1, h2⟩ := List.cons.inj h
      obtain ⟨hocc, hbef⟩ := findOcc_some s p hf
      rcases (leads_iff_exists pat (s.drop p)).1 hocc with ⟨t, ht⟩
      have hpatlen : 1 ≤ pat.length := length_pos_of_ne_nil hpat
      have hp_le : p ≤ s.length := by
        by_contra hgt
        push_neg at hgt
        rw [List.drop_of_length_le (Nat.le_of_lt hgt)] at ht
        cases pat with
        | nil => exact hpat rfl
        | cons a as => exact List.noConfusion ht
      have hdrop : s.drop (p + pat.length) = t := by
        rw [← List.drop_drop, ht]
        exact List.drop_left pat t
      have hfuel2 : (s.drop (p + pat.length)).length ≤ fuel := by
        rw [List.length_drop]
        omega
      obtain ⟨hrt, hnone⟩ := splitParts_eq_single hpat fuel _ r hfuel2 h2
      have hlen_l : l.length = p := by
        rw [← h1, List.length_take, Nat.min_eq_left hp_le]
      refine ⟨?_, ?_, ?_⟩
      · rw [← List.take_append_drop p s, ht, h1, hrt, hdrop, List.append_assoc]
      · intro q hq
        exact hbef q (by rwa [hlen_l] at hq)
      · rw [hrt]
        exact hnone

theorem pySplitAll_eq_pair {pat s l r : List Char} (hpat : pat ≠ [])
    (h : pySplitAll pat s = [l, r]) :
    s = l ++ pat ++ r ∧ (∀ p, p < l.length → leads pat (s.drop p) = false) ∧
      findOcc pat r = none :=
  splitParts_eq_pair hpat s.length s l r le_rfl h

/-! ## Occurrence transport across whitespace seams -/

theorem findOcc_left_of_pair {pat l r : List Char} (hpat : pat ≠ [])
    (hx : ∀ p, p < l.length → leads pat ((l ++ pat ++ r).drop p) = false) :
    findOcc pat l = none := by
  rw [findOcc_none_iff hpat]
  intro p
  by_cases hp : p < l.length
  · cases hld : leads pat (l.drop p) with
    | false => rfl
    | true =>
      exfalso
      rcases (leads_iff_exists _ _).1 hld with ⟨t, ht⟩
      have hcontra : leads pat ((l ++ pat ++ r).drop p) = true := by
        rw [List.append_assoc, List.drop_append_of_le_length (Nat.le_of_lt hp), ht,
          List.append_assoc]
        exact leads_self_append pat _
      rw [hx p hp] at hcontra
      exact Bool.noConfusion hcontra
  · rw [List.drop_of_length_le (Nat.le_of_not_lt hp)]
    exact leads_nil_right hpat

theorem noOcc_ws_cons {pat : List Char} (hpat : pat ≠ [])
    (hws : ∀ d ∈ pat, pyWs d = false) (c : Char) (hc : pyWs c = true) {z : List Char}
    (hz : findOcc pat z = none) : findOcc pat (c :: z) = none := by
  rw [findOcc_none_iff hpat]
  intro p
  cases p with
  | zero =>
    rw [List.drop_zero]
    cases hld : leads pat (c :: z) with
    | false => rfl
    | true =>
      exfalso
      have hcmem : c ∈ pat :=
        leads_cross_mem pat [] c z (by simpa using hld) (length_pos_of_ne_nil hpat)
      rw [hws c hcmem] at hc
      exact Bool.noConfusion hc
  | succ p =>
    rw [List.drop_succ_cons]
    exact (findOcc_none_iff hpat z).1 hz p

theorem noMatch_padded {pat : List Char} (hpat : pat ≠ [])
    (hws : ∀ d ∈ pat, pyWs d = false) (x pad z : List Char)
    (hx : findOcc pat x = none) (hpad : ∀ c ∈ pad, pyWs c = true) (hpadne : pad ≠ []) :
    ∀ p, p < x.length + pad.length → leads pat ((x ++ (pad ++ z)).drop p) = false := by
  intro p hp
  by_cases hpx : p < x.length
  · rw [List.drop_append_of_le_length (Nat.le_of_lt hpx)]
    cases hld : leads pat (x.drop p ++ (pad ++ z)) with
    | false => rfl
    | true =>
      exfalso
      by_cases hlen : pat.length ≤ (x.drop p).length
      · have h1 : leads pat (x.drop p ++ (pad ++ z)) = leads pat (x.drop p ++ []) :=
          leads_append_left (x.drop p) (pad ++ z) [] hlen
        rw [h1, List.append_nil] at hld
        have h2 := (findOcc_none_iff hpat x).1 hx p
        rw [h2] at hld
        exact Bool.noConfusion hld
      · push_neg at hlen
        cases hpd : pad with
        | nil => exact hpadne hpd
        | cons c pad2 =>
          have hcmem : c ∈ pat := by
            apply leads_cross_mem pat (x.drop p) c (pad2 ++ z) _ hlen
            rw [hpd] at hld
            simpa using hld
          have hcw := hpad c (by rw [hpd]; exact List.mem_cons_self _ _)
          rw [hws c hcmem] at hcw
          exact Bool.noConfusion hcw
  · push_neg at hpx
    rw [List.drop_append_eq_append_drop, List.drop_of_length_le hpx, List.nil_append]
    have hlt : p - x.length < pad.length := by omega
    rw [List.drop_append_of_le_length (Nat.le_of_lt hlt)]
    cases hd : pad.drop (p - x.length) with
    | nil =>
      exfalso
      have hlen := List.length_drop (p - x.length) pad
      rw [hd] at hlen
      simp only [List.length_nil] at hlen
      omega
    | cons c rest =>
      cases hld : leads pat (c :: rest ++ z) with
      | false => simp [List.cons_append, hld]
      | true =>
        exfalso
        have hcmem : c ∈ pat :=
          leads_cross_mem pat [] c (rest ++ z) (by simpa using hld)
            (length_pos_of_ne_nil hpat)
        have hcpad : c ∈ pad := by
          apply List.drop_subset (p - x.length) pad
          rw [hd]
          exact List.mem_cons_self _ _
        have hcw := hpad c hcpad
        rw [hws c hcmem] at hcw
        exact Bool.noConfusion hcw

/-! ## Stripping lemmas -/

theorem stripWsL_ws_cons (c : Char) (hc : pyWs c = true) (l : List Char) :
    stripWsL (c :: l) = stripWsL l := by
  unfold stripWsL
  rw [List.dropWhile_cons, if_pos hc]

theorem stripWsL_append_ws (l pad : List Char) (hpad : ∀ c ∈ pad, pyWs c = true) :
    stripWsL (l ++ pad) = stripWsL l := by
  unfold stripWsL
  rw [List.dropWhile_append]
  by_cases h : (l.dropWhile pyWs).isEmpty = true
  · rw [if_pos h]
    have hl : l.dropWhile pyWs = [] := by
      cases hll : l.dropWhile pyWs with
      | nil => rfl
      | cons a as => rw [hll] at h; exact Bool.noConfusion h
    have hp : pad.dropWhile pyWs = [] := by
      cases hpp : pad.dropWhile pyWs with
      | nil => rfl
      | cons a as =>
        exfalso
        have ha : a ∈ pad.dropWhile pyWs := by rw [hpp]; exact List.mem_cons_self _ _
        have ha2 : a ∈ pad := List.dropWhile_subset pyWs ha
        have := List.head?_dropWhile_not pyWs pad
        rw [hpp] at this
        simp only [List.head?_cons] at this
        rw [hpad a ha2] at this
        exact Bool.noConfusion this
    rw [hp, hl]
  · rw [if_neg h]
    rw [List.reverse_append]
    rw [dropWhile_append_of_all pad.reverse _
      (fun c hc => hpad c (List.mem_reverse.1 hc))]

theorem parsePrice_ws_cons (c : Char) (hc : pyWs c = true) (p : String) :
    parsePrice (String.mk (c :: p.data)) = parsePrice p := by
  unfold parsePrice
  show pyFloat? (String.mk (stripDollarL (stripWsL (c :: p.data)))) = _
  rw [stripWsL_ws_cons c hc]

theorem parsePrice_append_ws (p : String) (pad : List Char)
    (hpad : ∀ c ∈ pad, pyWs c = true) :
    parsePrice (String.mk (p.data ++ pad)) = parsePrice p := by
  unfold parsePrice
  show pyFloat? (String.mk (stripDollarL (stripWsL (p.data ++ pad)))) = _
  rw [stripWsL_append_ws p.data pad hpad]

/-! ## Words of a string -/

theorem wordsAux_nil (acc : List Char) :
    wordsAux [] acc = if acc = [] then [] else [acc.reverse] := rfl

theorem wordsAux_cons (c : Char) (rest acc : List Char) :
    wordsAux (c :: rest) acc =
      if pyWs c then
        (if acc = [] then wordsAux rest [] else acc.reverse :: wordsAux rest [])
      else wordsAux rest (c :: acc) := rfl

theorem wordsAux_keep_all (u : List Char) (hu : ∀ c ∈ u, pyWs c = false) :
    ∀ (t acc : List Char), wordsAux (u ++ t) acc = wordsAux t (u.reverse ++ acc) := by
  induction u with
  | nil => intro t acc; simp
  | cons c u ih =>
    intro t acc
    have hc : pyWs c = false := hu c (List.mem_cons_self _ _)
    rw [List.cons_append, wordsAux_cons, if_neg (by simp [hc])]
    rw [ih (fun d hd => hu d (List.mem_cons_of_mem c hd)) t (c :: acc)]
    congr 1
    simp

theorem wordsAux_flush_ws (t : List Char) : ∀ (u : List Char), ∀ (acc : List Char),
    (∃ u2 c, u = u2 ++ [c] ∧ pyWs c = true) →
    wordsAux (u ++ t) acc = wordsAux u acc ++ wordsAux t [] := by
  intro u
  induction u with
  | nil =>
    rintro acc ⟨u2, c, hc, -⟩
    exact absurd hc (by simp)
  | cons d u ih =>
    rintro acc ⟨u2, c, hc, hcw⟩
    rw [List.cons_append, wordsAux_cons, wordsAux_cons]
    by_cases hd : pyWs d = true
    · rw [if_pos hd, if_pos hd]
      cases u with
      | nil =>
        by_cases ha : acc = []
        · rw [if_pos ha, if_pos ha]
          rfl
        · rw [if_neg ha, if_neg ha]
          rfl
      | cons e u2' =>
        have hu : ∃ u3 c2, (e :: u2') = u3 ++ [c2] ∧ pyWs c2 = true := by
          cases u2 with
          | nil => simp at hc
          | cons f u3 =>
            obtain ⟨-, h2⟩ := List.cons.inj hc
            exact ⟨u3, c, h2, hcw⟩
        by_cases ha : acc = []
        · rw [if_pos ha, if_pos ha]
          exact ih [] hu
        · rw [if_neg ha, if_neg ha]
          rw [ih [] hu]
          rfl
    · rw [if_neg hd, if_neg hd]
      have hu : ∃ u3 c2, u = u3 ++ [c2] ∧ pyWs c2 = true := by
        cases u2 with
        | nil =>
          obtain ⟨h1, h2⟩ := List.cons.inj (by simpa using hc)
          rw [h1] at hd
          exact absurd hcw hd
        | cons f u3 =>
          obtain ⟨-, h2⟩ := List.cons.inj hc
          exact ⟨u3, c, h2, hcw⟩
      exact ih (d :: acc) hu

theorem words_head_mem {w v : List Char} (hw : w ≠ []) (hwf : ∀ c ∈ w, pyWs c = false)
    (hv : v = [] ∨ ∃ c v2, v = c :: v2 ∧ pyWs c = true) :
    String.mk w ∈ (wordsAux (w ++ v) []).map String.mk := by
  rw [wordsAux_keep_all w hwf v []]
  have hne : w.reverse ++ [] ≠ [] := by
    simp only [List.append_nil]
    intro hh
    exact hw (by simpa using congrArg List.reverse hh)
  rcases hv with rfl | ⟨c, v2, rfl, hc⟩
  · rw [wordsAux_nil, if_neg hne]
    simp
  · rw [wordsAux_cons, if_pos hc, if_neg hne]
    simp

/-! ## Words found by the right-to-left rsplit are words of the string -/

theorem dropWhile_not_ws_head (l : List Char) :
    l.dropWhile (fun c => !pyWs c) = [] ∨
      ∃ c t2, l.dropWhile (fun c => !pyWs c) = c :: t2 ∧ pyWs c = true := by
  cases hd : l.dropWhile (fun c => !pyWs c) with
  | nil => exact Or.inl rfl
  | cons c t2 =>
    refine Or.inr ⟨c, t2, rfl, ?_⟩
    have h2 := List.head?_dropWhile_not (fun c => !pyWs c) l
    rw [hd] at h2
    simp only [List.head?_cons] at h2
    simpa using h2

theorem word_of_rev_decomp {s pre w t : List Char}
    (hdec : s.reverse = pre ++ w ++ t)
    (hw : w ≠ []) (hwf : ∀ c ∈ w, pyWs c = false)
    (hpre : pre = [] ∨ ∃ u2 d, pre = u2 ++ [d] ∧ pyWs d = true)
    (ht : t = [] ∨ ∃ c t2, t = c :: t2 ∧ pyWs c = true) :
    String.mk w.reverse ∈ words (String.mk s) := by
  have hs : s = t.reverse ++ (w.reverse ++ pre.reverse) := by
    have h2 := congrArg List.reverse hdec
    rw [List.reverse_reverse] at h2
    rw [h2]
    simp [List.reverse_append, List.append_assoc]
  unfold words
  show String.mk w.reverse ∈ (wordsAux (String.mk s).data []).map String.mk
  have hdata : (String.mk s).data = s := rfl
  rw [hdata, hs]
  have hwrev : w.reverse ≠ [] := fun h => hw (by simpa using congrArg List.reverse h)
  have hwfrev : ∀ c ∈ w.reverse, pyWs c = false := fun c hc => hwf c (List.mem_reverse.1 hc)
  have hprerev : pre.reverse = [] ∨ ∃ c v2, pre.reverse = c :: v2 ∧ pyWs c = true := by
    rcases hpre with rfl | ⟨u2, d, rfl, hd⟩
    · exact Or.inl rfl
    · exact Or.inr ⟨d, u2.reverse, by simp, hd⟩
  rcases ht with rfl | ⟨c, t2, rfl, hcw⟩
  · simp only [List.reverse_nil, List.nil_append]
    exact words_head_mem hwrev hwfrev hprerev
  · have hflush : ∃ u2 d, (c :: t2).reverse = u2 ++ [d] ∧ pyWs d = true :=
      ⟨t2.reverse, c, List.reverse_cons c t2, hcw⟩
    rw [wordsAux_flush_ws (w.reverse ++ pre.reverse) (c :: t2).reverse [] hflush]
    rw [List.map_append]
    exact List.mem_append_right _ (words_head_mem hwrev hwfrev hprerev)

theorem mem_words_of_mem_rsplitTwo {s x : String}
    (hx : x ∈ rsplitTwo s) (hxf : ∀ c ∈ x.data, pyWs c = false) : x ∈ words s := by
  simp only [rsplitTwo] at hx
  set r : List Char := s.data.reverse with hr
  set r1 : List Char := r.dropWhile pyWs with hr1
  set w1 : List Char := r1.takeWhile (fun c => !pyWs c) with hw1
  set t1 : List Char := r1.dropWhile (fun c => !pyWs c) with ht1
  set r2 : List Char := t1.dropWhile pyWs with hr2
  set w2 : List Char := r2.takeWhile (fun c => !pyWs c) with hw2
  set t2 : List Char := r2.dropWhile (fun c => !pyWs c) with ht2
  set chunk : List Char := t2.dropWhile pyWs with hchunk
  have e0 : w1 ++ t1 = r1 := by rw [hw1, ht1]; exact List.takeWhile_append_dropWhile _ _
  have e1 : r.takeWhile pyWs ++ r1 = r := by rw [hr1]; exact List.takeWhile_append_dropWhile _ _
  have e2 : w2 ++ t2 = r2 := by rw [hw2, ht2]; exact List.takeWhile_append_dropWhile _ _
  have e3 : t1.takeWhile pyWs ++ r2 = t1 := by rw [hr2]; exact List.takeWhile_append_dropWhile _ _
  have e4 : t2.takeWhile pyWs ++ chunk = t2 := by rw [hchunk]; exact List.takeWhile_append_dropWhile _ _
  have hw1f : ∀ c ∈ w1, pyWs c = false := by
    intro c hc
    rw [hw1] at hc
    simpa using List.mem_takeWhile_imp hc
  have hw2f : ∀ c ∈ w2, pyWs c = false := by
    intro c hc
    rw [hw2] at hc
    simpa using List.mem_takeWhile_imp hc
  have ht1c : t1 = [] ∨ ∃ c t0, t1 = c :: t0 ∧ pyWs c = true := by
    rw [ht1]; exact dropWhile_not_ws_head r1
  have ht2c : t2 = [] ∨ ∃ c t0, t2 = c :: t0 ∧ pyWs c = true := by
    rw [ht2]; exact dropWhile_not_ws_head r2
  have hdecA : r = r.takeWhile pyWs ++ w1 ++ t1 := by
    rw [List.append_assoc, e0, e1]
  -- membership in `words s` for the rightmost word w1
  have hmemw1 : w1 ≠ [] → String.mk w1.reverse ∈ words s := by
    intro hw1ne
    have h := @word_of_rev_decomp s.data (r.takeWhile pyWs) w1 t1
      (by rw [← hr]; exact hdecA) hw1ne hw1f
      (by
        rcases List.eq_nil_or_concat (r.takeWhile pyWs) with h0 | ⟨L, d, h0⟩
        · exact Or.inl h0
        · rw [List.concat_eq_append] at h0
          refine Or.inr ⟨L, d, h0, ?_⟩
          have : d ∈ r.takeWhile pyWs := by rw [h0]; simp
          exact List.mem_takeWhile_imp this)
      ht1c
    rwa [string_mk_data] at h
  -- membership for the second-from-right word w2
  have hmemw2 : w2 ≠ [] → String.mk w2.reverse ∈ words s := by
    intro hw2ne
    have ht1ne : t1 ≠ [] := by
      intro h0
      apply hw2ne
      rw [hw2, hr2, h0]
      rfl
    rcases ht1c with h0 | ⟨c, t0, hct, hcw⟩
    · exact absurd h0 ht1ne
    have hrun2ne : t1.takeWhile pyWs ≠ [] := by
      rw [hct, List.takeWhile_cons, if_pos hcw]
      simp
    have ht1split : t1 = t1.takeWhile pyWs ++ (w2 ++ t2) := by rw [e2, e3]
    have hdecB : r = ((r.takeWhile pyWs ++ w1) ++ t1.takeWhile pyWs) ++ w2 ++ t2 := by
      conv_lhs => rw [hdecA, ht1split]
      simp [List.append_assoc]
    have h := @word_of_rev_decomp s.data
      ((r.takeWhile pyWs ++ w1) ++ t1.takeWhile pyWs) w2 t2
      (by rw [← hr]; exact hdecB) hw2ne hw2f
      (by
        rcases List.eq_nil_or_concat (t1.takeWhile pyWs) with h0 | ⟨L, d, h0⟩
        · exact absurd h0 hrun2ne
        · rw [List.concat_eq_append] at h0
          refine Or.inr ⟨(r.takeWhile pyWs ++ w1) ++ L, d, ?_, ?_⟩
          · rw [h0]
            simp [List.append_assoc]
          · have : d ∈ t1.takeWhile pyWs := by rw [h0]; simp
            exact List.mem_takeWhile_imp this)
      ht2c
    rwa [string_mk_data] at h
  -- membership for a whitespace-free chunk
  have hmemchunk : chunk ≠ [] → w2 ≠ [] → (∀ c ∈ chunk, pyWs c = false) →
      String.mk chunk.reverse ∈ words s := by
    intro hchne hw2ne hchf
    have ht2ne : t2 ≠ [] := by
      intro h0
      apply hchne
      rw [hchunk, h0]
      rfl
    rcases ht2c with h0 | ⟨c, t0, hct, hcw⟩
    · exact absurd h0 ht2ne
    have hrun3ne : t2.takeWhile pyWs ≠ [] := by
      rw [hct, List.takeWhile_cons, if_pos hcw]
      simp
    have ht1ne : t1 ≠ [] := by
      intro h0
      apply hw2ne
      rw [hw2, hr2, h0]
      rfl
    rcases ht1c with h0 | ⟨c1, t01, hct1, hcw1⟩
    · exact absurd h0 ht1ne
    have hrun2ne : t1.takeWhile pyWs ≠ [] := by
      rw [hct1, List.takeWhile_cons, if_pos hcw1]
      simp
    have ht1split : t1 = t1.takeWhile pyWs ++ (w2 ++ t2) := by rw [e2, e3]
    have hdecB : r = ((r.takeWhile pyWs ++ w1) ++ t1.takeWhile pyWs) ++ w2 ++ t2 := by
      conv_lhs => rw [hdecA, ht1split]
      simp [List.append_assoc]
    have ht2split : t2 = t2.takeWhile pyWs ++ chunk := e4.symm
    have hdecC : r = ((((r.takeWhile pyWs ++ w1) ++ t1.takeWhile pyWs) ++ w2)
        ++ t2.takeWhile pyWs) ++ chunk ++ [] := by
      conv_lhs => rw [hdecB, ht2split]
      simp [List.append_assoc]
    have h := @word_of_rev_decomp s.data
      ((((r.takeWhile pyWs ++ w1) ++ t1.takeWhile pyWs) ++ w2) ++ t2.takeWhile pyWs)
      chunk []
      (by rw [← hr]; exact hdecC) hchne hchf
      (by
        rcases List.eq_nil_or_concat (t2.takeWhile pyWs) with h0 | ⟨L, d, h0⟩
        · exact absurd h0 hrun3ne
        · rw [List.concat_eq_append] at h0
          refine Or.inr ⟨(((r.takeWhile pyWs ++ w1) ++ t1.takeWhile pyWs) ++ w2) ++ L, d, ?_, ?_⟩
          · rw [h0]
            simp [List.append_assoc]
          · have : d ∈ t2.takeWhile pyWs := by rw [h0]; simp
            exact List.mem_takeWhile_imp this)
      (Or.inl rfl)
    rwa [string_mk_data] at h
  -- now discharge the branches of rsplitTwo
  by_cases h1 : w1 = []
  · rw [if_pos h1] at hx
    simp at hx
  · rw [if_neg h1] at hx
    by_cases h2 : w2 = []
    · rw [if_pos h2] at hx
      simp only [List.mem_singleton] at hx
      rw [hx]
      exact hmemw1 h1
    · rw [if_neg h2] at hx
      by_cases h3 : chunk = []
      · rw [if_pos h3] at hx
        simp only [List.mem_cons, List.not_mem_nil, or_false] at hx
        rcases hx with h | h
        · rw [h]
          exact hmemw2 h2
        · rw [h]
          exact hmemw1 h1
      · rw [if_neg h3] at hx
        simp only [List.mem_cons, List.not_mem_nil, or_false] at hx
        rcases hx with h | h | h
        · have hd : x.data = chunk.reverse := congrArg String.data h
          rw [h]
          apply hmemchunk h3 h2
          intro c hc
          exact hxf c (by rw [hd]; exact List.mem_reverse.2 hc)
        · rw [h]
          exact hmemw2 h2
        · rw [h]
          exact hmemw1 h1

/-! ## Properties of the inferred separator words -/

theorem rsplitTwo_drop_one_words {fmt x : String}
    (hx : x ∈ (rsplitTwo fmt).drop 1) : x.data ≠ [] ∧ ∀ c ∈ x.data, pyWs c = false := by
  simp only [rsplitTwo] at hx
  set r : List Char := fmt.data.reverse with hr
  set r1 : List Char := r.dropWhile pyWs with hr1
  set w1 : List Char := r1.takeWhile (fun c => !pyWs c) with hw1
  set t1 : List Char := r1.dropWhile (fun c => !pyWs c) with ht1
  set r2 : List Char := t1.dropWhile pyWs with hr2
  set w2 : List Char := r2.takeWhile (fun c => !pyWs c) with hw2
  set t2 : List Char := r2.dropWhile (fun c => !pyWs c) with ht2
  set chunk : List Char := t2.dropWhile pyWs with hchunk
  have hw1f : ∀ c ∈ w1, pyWs c = false := by
    intro c hc
    rw [hw1] at hc
    simpa using List.mem_takeWhile_imp hc
  have hw2f : ∀ c ∈ w2, pyWs c = false := by
    intro c hc
    rw [hw2] at hc
    simpa using List.mem_takeWhile_imp hc
  have hrev : ∀ (w : List Char), w ≠ [] → (∀ c ∈ w, pyWs c = false) →
      (String.mk w.reverse).data ≠ [] ∧ ∀ c ∈ (String.mk w.reverse).data, pyWs c = false := by
    intro w hne hf
    constructor
    · show w.reverse ≠ []
      intro h0
      exact hne (by simpa using congrArg List.reverse h0)
    · intro c hc
      exact hf c (List.mem_reverse.1 hc)
  by_cases h1 : w1 = []
  · rw [if_pos h1] at hx
    simp at hx
  · rw [if_neg h1] at hx
    by_cases h2 : w2 = []
    · rw [if_pos h2] at hx
      simp at hx
    · rw [if_neg h2] at hx
      by_cases h3 : chunk = []
      · rw [if_pos h3] at hx
        simp only [List.drop_succ_cons, List.drop_zero, List.mem_singleton] at hx
        rw [hx]
        exact hrev w1 h1 hw1f
      · rw [if_neg h3] at hx
        simp only [List.drop_succ_cons, List.drop_zero, List.mem_cons,
          List.not_mem_nil, or_false] at hx
        rcases hx with h | h
        · rw [h]
          exact hrev w2 h2 hw2f
        · rw [h]
          exact hrev w1 h1 hw1f

theorem getSeparators_sub_drop_one {fmt : String} {seps : List String}
    (h : getSeparators fmt = .ok seps) : ∀ x ∈ seps, x ∈ (rsplitTwo fmt).drop 1 := by
  intro x hx
  simp only [getSeparators] at h
  by_cases hc : "{item}" ∈ rsplitTwo fmt ∧ "{price}" ∈ rsplitTwo fmt
  · rw [if_pos hc] at h
    have hseps := (Except.ok.inj h).symm
    rw [hseps] at hx
    have h2 := List.take_subset _ _ hx
    have h3 :
        (rsplitTwo fmt).drop
            (min (List.indexOf "{item}" (rsplitTwo fmt)) (List.indexOf "{price}" (rsplitTwo fmt)) + 1)
          = ((rsplitTwo fmt).drop 1).drop
            (min (List.indexOf "{item}" (rsplitTwo fmt)) (List.indexOf "{price}" (rsplitTwo fmt))) := by
      rw [List.drop_drop, Nat.add_comm]
    rw [h3] at h2
    exact List.drop_subset _ _ h2
  · rw [if_neg hc] at h
    exact Except.noConfusion h

theorem getSeparators_words {fmt : String} {seps : List String}
    (h : getSeparators fmt = .ok seps) :
    ∀ x ∈ seps, x.data ≠ [] ∧ ∀ c ∈ x.data, pyWs c = false :=
  fun x hx => rsplitTwo_drop_one_words (getSeparators_sub_drop_one h x hx)

/-! ## Claim C7: a missing placeholder word is fatal -/

/-- **C7.** For every line-format string missing the whitespace-delimited
word `"{item}"` or missing `"{price}"`, separator inference raises the
missing-placeholder error, and `calculate_total` (which derives the
separator before scanning any line) propagates it for every input file,
returning no partial total. -/
theorem c7_missing_placeholder_fatal (fmt : String)
    (h : "{item}" ∉ words fmt ∨ "{price}" ∉ words fmt) :
    getSeparators fmt = .error .missingPlaceholder ∧
      ∀ lines : List String, calcTotal fmt lines = .error .missingPlaceholder := by
  have hsep : getSeparators fmt = .error .missingPlaceholder := by
    simp only [getSeparators]
    rw [if_neg]
    rintro ⟨hi, hp⟩
    rcases h with h | h
    · exact h (mem_words_of_mem_rsplitTwo hi (by decide))
    · exact h (mem_words_of_mem_rsplitTwo hp (by decide))
  refine ⟨hsep, fun lines => ?_⟩
  unfold calcTotal
  rw [hsep]
  rfl

/-- Witness for C7 at the spec's own example `"{item} costs"`. -/
theorem c7_missing_placeholder_fatal_witness :
    getSeparators "{item} costs" = .error .missingPlaceholder ∧
      calcTotal "{item} costs" ["Gum = $1.25\n"] = .error .missingPlaceholder := by
  have h := c7_missing_placeholder_fatal "{item} costs" (Or.inr (by decide))
  exact ⟨h.1, h.2 ["Gum = $1.25\n"]⟩

/-! ## Claim C2: an unparseable price aborts the scan (code bug) -/

/-- **C2 (code bug evaluation).**  The line `"Gum = oops"` splits into
exactly two parts on the separator `"="`, but its price part does not parse
as a number; since `total += float(...)` sits OUTSIDE the `try` block in
`calculate_total`, the `ValueError` escapes and aborts the whole call
instead of the line being skipped as the spec requires. -/
theorem c2_unparseable_price_aborts :
    calcTotal "{item} = {price}" ["Gum = oops\n"] = .error .valueError := by
  with_unfolding_all rfl

/-! ## Claim C5: the price-first concrete scenario -/

/-- **C5.**  With `itemFmt = "{price} -> {item}"` and the single line
`"$2.50 -> Cookies"`, `calculate_total` splits on `"->"`, sees that the
left part starts with `"$"`, swaps so the left part is the price, and
returns exactly `"$2.5"` (two-decimal rounding without forced
trailing-zero padding). -/
theorem c5_price_first_swap_scenario :
    calcTotal "{price} -> {item}" ["$2.50 -> Cookies\n"] = .ok "$2.5" := by
  with_unfolding_all rfl

/-! ## Claim C9: auto-align with an empty separator list raises IndexError -/

/-- **C9.**  When the placeholders are adjacent so that separator inference
returns the empty word sequence, `generate_report` with `auto_align = true`
raises an uncaught `IndexError` at `self._get_separators()[-1]` in
`_align_separator`: the operation is not total on this configuration and no
output content is produced (the result is an error, not a string). -/
theorem exc_bind_ok {α β : Type} (a : α) (f : α → Except PyError β) :
    (Except.ok a >>= f) = f a := rfl

theorem exc_bind_error {α β : Type} (e : PyError) (f : α → Except PyError β) :
    ((Except.error e : Except PyError α) >>= f) = Except.error e := rfl

/-- **C9.**  When the placeholders are adjacent so that separator inference
returns the empty word sequence, `generate_report` with `auto_align = true`
raises an uncaught `IndexError` at `self._get_separators()[-1]` in
`_align_separator`: the operation is not total on this configuration and no
output content is produced (the result is an error, not a string). -/
theorem c9_autoalign_empty_separator_index_error (st : ReportState)
    (draws : List (String × String)) (fields : List (String × String)) (now : String)
    (hfmt : getSeparators st.itemFmt = .ok [])
    (halign : st.autoAlign = true)
    (hformats : ∃ es, draws.mapM
        (fun d => pyFormatFields [("item", d.1), ("price", d.2)] st.itemFmt) = .ok es) :
    generateContent st draws fields now = .error .indexError := by
  obtain ⟨es, hes⟩ := hformats
  have halign2 : alignSeparator st.itemFmt es = .error .indexError := by
    unfold alignSeparator
    rw [hfmt]
    rfl
  unfold generateContent
  simp only [hes, exc_bind_ok, halign, eq_self_iff_true, if_true, halign2, exc_bind_error]

/-- Witness for C9: `itemFmt = "{item} {price}"`, one draw, auto-align on. -/
theorem c9_autoalign_empty_separator_index_error_witness :
    generateContent
      { inventory := [], entries := 1, autoAlign := true,
        itemFmt := "{item} {price}", template := ["{report}"] }
      [("Gum", "$2.34")] [] "2021-01-01" = .error .indexError :=
  c9_autoalign_empty_separator_index_error _ [("Gum", "$2.34")] [] "2021-01-01"
    (by decide) rfl ⟨["Gum $2.34"], by with_unfolding_all rfl⟩

/-! ## Claim C10: the constructor pops tier keys out of the caller's dict -/

theorem lookup_cons_eq_if (k a : String) (b : List String)
    (l : List (String × List String)) :
    List.lookup k ((a, b) :: l) = if k == a then some b else List.lookup k l := by
  cases hka : k == a with
  | true => simp [List.lookup, hka]
  | false => simp [List.lookup, hka]

theorem string_beq_comm (a b : String) : (a == b) = (b == a) := by
  cases hab : a == b with
  | true =>
    have : a = b := by simpa using hab
    rw [this]
    simp
  | false =>
    have : a ≠ b := by simpa using hab
    cases hba : b == a with
    | true =>
      have : b = a := by simpa using hba
      exact absurd this.symm ‹a ≠ b›
    | false => rfl

theorem eraseP_of_lookup_none (k : String) :
    ∀ l : List (String × List String), List.lookup k l = none →
      l.eraseP (fun kv => kv.1 == k) = l := by
  intro l
  induction l with
  | nil => intro _; rfl
  | cons kv l ih =>
    intro hl
    obtain ⟨a, b⟩ := kv
    rw [lookup_cons_eq_if] at hl
    have hka : (k == a) = false := by
      cases hka : k == a with
      | true => rw [if_pos hka] at hl; exact Option.noConfusion hl
      | false => rfl
    rw [if_neg (by simp [hka])] at hl
    have hak : (a == k) = false := by rw [string_beq_comm]; exact hka
    rw [List.eraseP_cons, hak, Bool.cond_false]
    rw [ih hl]

theorem popKey_snd (k : String) (d : List String) (l : List (String × List String)) :
    (popKey k d l).2 = l.eraseP (fun kv => kv.1 == k) := by
  unfold popKey
  cases hl : List.lookup k l with
  | some v => rfl
  | none => exact (eraseP_of_lookup_none k l hl).symm

theorem length_eraseP_lt_of_lookup (k : String) :
    ∀ l : List (String × List String), (List.lookup k l).isSome = true →
      (l.eraseP (fun kv => kv.1 == k)).length < l.length := by
  intro l
  induction l with
  | nil => intro h; simp [List.lookup] at h
  | cons kv l ih =>
    intro h
    obtain ⟨a, b⟩ := kv
    cases hak : (a == k) with
    | true =>
      rw [List.eraseP_cons, hak, Bool.cond_true]
      simp only [List.length_cons]
      omega
    | false =>
      rw [List.eraseP_cons, hak, Bool.cond_false]
      have hka : (k == a) = false := by rw [string_beq_comm]; exact hak
      rw [lookup_cons_eq_if, if_neg (by simp [hka])] at h
      have hlt := ih h
      simp only [List.length_cons]
      omega

theorem length_eraseP_le (p : String × List String → Bool) :
    ∀ l : List (String × List String), (l.eraseP p).length ≤ l.length := by
  intro l
  induction l with
  | nil => simp
  | cons kv l ih =>
    cases hp : p kv with
    | true =>
      rw [List.eraseP_cons, hp, Bool.cond_true]
      simp only [List.length_cons]
      omega
    | false =>
      rw [List.eraseP_cons, hp, Bool.cond_false]
      simp only [List.length_cons]
      omega

theorem lookup_isSome_eraseP_ne {k k2 : String} (hkk : k ≠ k2) :
    ∀ l : List (String × List String), (List.lookup k l).isSome = true →
      (List.lookup k (l.eraseP (fun kv => kv.1 == k2))).isSome = true := by
  intro l
  induction l with
  | nil => intro h; simp [List.lookup] at h
  | cons kv l ih =>
    intro h
    obtain ⟨a, b⟩ := kv
    cases hak2 : (a == k2) with
    | true =>
      rw [List.eraseP_cons, hak2, Bool.cond_true]
      have ha2 : a = k2 := by simpa using hak2
      have hka : (k == a) = false := by
        have : k ≠ a := fun hk => hkk (hk.trans ha2)
        simpa using this
      rw [lookup_cons_eq_if, if_neg (by simp [hka])] at h
      exact h
    | false =>
      rw [List.eraseP_cons, hak2, Bool.cond_false]
      rw [lookup_cons_eq_if] at h
      rw [lookup_cons_eq_if]
      cases hka : (k == a) with
      | true =>
        rw [if_pos (by simp [hka])]
        rfl
      | false =>
        rw [if_neg (by simp [hka])] at h
        rw [if_neg (by simp [hka])]
        exact ih h

/-- **C10 counterexample.**  A non-empty caller inventory containing none of
the tier keys is returned unchanged by the constructor, refuting the claim
that construction with any non-empty inventory leaves the caller's mapping
changed. -/
theorem c10_counterexample :
    ([("x", ["y"])] : List (String × List String)) ≠ [] ∧
      (initReport [("x", ["y"])] 5 [] []).2 = [("x", ["y"])] := by
  constructor
  · simp
  · with_unfolding_all rfl

/-- **C10 (amended).**  Constructing a `Report` with a non-empty inventory
mutates the caller-supplied dict: the keys `"$"`, `"$$"`, `"$$$"` present in
the argument are removed from it (popped) during construction, so whenever
at least one tier key is present the caller's mapping is not left
unchanged. -/
theorem c10_constructor_pops (inv : List (String × List String)) (n : Nat)
    (dinv : List (String × List String)) (dtmpl : List String)
    (hne : inv ≠ [])
    (hkey : (List.lookup "$" inv).isSome = true ∨ (List.lookup "$$" inv).isSome = true
      ∨ (List.lookup "$$$" inv).isSome = true) :
    (initReport inv n dinv dtmpl).2 =
      ((inv.eraseP (fun kv => kv.1 == "$")).eraseP
          (fun kv => kv.1 == "$$")).eraseP (fun kv => kv.1 == "$$$") ∧
      (initReport inv n dinv dtmpl).2 ≠ inv := by
  have hres : (initReport inv n dinv dtmpl).2 =
      ((inv.eraseP (fun kv => kv.1 == "$")).eraseP
          (fun kv => kv.1 == "$$")).eraseP (fun kv => kv.1 == "$$$") := by
    simp only [initReport]
    rw [if_neg hne, if_neg hne]
    rw [popKey_snd, popKey_snd, popKey_snd]
  refine ⟨hres, ?_⟩
  intro heq
  rw [hres] at heq
  have hlen := congrArg List.length heq
  rcases hkey with hk | hk | hk
  · have h1 := length_eraseP_lt_of_lookup "$" inv hk
    have h2 := length_eraseP_le (fun kv => kv.1 == "$$") (inv.eraseP (fun kv => kv.1 == "$"))
    have h3 := length_eraseP_le (fun kv => kv.1 == "$$$")
      ((inv.eraseP (fun kv => kv.1 == "$")).eraseP (fun kv => kv.1 == "$$"))
    omega
  · have h0 : (List.lookup "$$" (inv.eraseP (fun kv => kv.1 == "$"))).isSome = true :=
      lookup_isSome_eraseP_ne (by decide) inv hk
    have h1 := length_eraseP_le (fun kv => kv.1 == "$") inv
    have h2 := length_eraseP_lt_of_lookup "$$" (inv.eraseP (fun kv => kv.1 == "$")) h0
    have h3 := length_eraseP_le (fun kv => kv.1 == "$$$")
      ((inv.eraseP (fun kv => kv.1 == "$")).eraseP (fun kv => kv.1 == "$$"))
    omega
  · have h0 : (List.lookup "$$$" (inv.eraseP (fun kv => kv.1 == "$"))).isSome = true :=
      lookup_isSome_eraseP_ne (by decide) inv hk
    have h0b : (List.lookup "$$$"
        ((inv.eraseP (fun kv => kv.1 == "$")).eraseP (fun kv => kv.1 == "$$"))).isSome = true :=
      lookup_isSome_eraseP_ne (by decide) (inv.eraseP (fun kv => kv.1 == "$")) h0
    have h1 := length_eraseP_le (fun kv => kv.1 == "$") inv
    have h2 := length_eraseP_le (fun kv => kv.1 == "$$") (inv.eraseP (fun kv => kv.1 == "$"))
    have h3 := length_eraseP_lt_of_lookup "$$$"
      ((inv.eraseP (fun kv => kv.1 == "$")).eraseP (fun kv => kv.1 == "$$")) h0b
    omega

/-- Witness for the amended C10: an inventory containing the `"$"` key and
one other key loses exactly the `"$"` entry. -/
theorem c10_constructor_pops_witness :
    (initReport [("$", ["a"]), ("z", ["b"])] 5 [] []).2 = [("z", ["b"])] ∧
      (initReport [("$", ["a"]), ("z", ["b"])] 5 [] []).2 ≠ [("$", ["a"]), ("z", ["b"])] := by
  have h := c10_constructor_pops [("$", ["a"]), ("z", ["b"])] 5 [] []
    (by simp) (Or.inl (by decide))
  refine ⟨?_, h.2⟩
  rw [h.1]
  with_unfolding_all rfl

/-! ## Claim C4: the total sums exactly the matching lines -/

theorem foldlM_calcStep (sep : String) :
    ∀ (lines : List String) (acc : ℚ),
      (∀ line ∈ lines, lineParses sep line = true) →
      lines.foldlM (calcStep sep) acc
        = .ok (acc + (lines.map (fun l => (lineVal? sep l).getD 0)).sum) := by
  intro lines
  induction lines with
  | nil =>
    intro acc _
    simp [List.foldlM_nil]
    rfl
  | cons line lines ih =>
    intro acc hp
    have hline := hp line (List.mem_cons_self _ _)
    rw [List.foldlM_cons]
    unfold lineParses at hline
    cases hs : pySplit2? sep line with
    | none =>
      have hstep : calcStep sep acc line = .ok acc := by
        unfold calcStep
        rw [hs]
      have hval : lineVal? sep line = none := by
        unfold lineVal?
        rw [hs]
        rfl
      rw [hstep, exc_bind_ok, ih acc (fun l hl => hp l (List.mem_cons_of_mem _ hl))]
      rw [List.map_cons, List.sum_cons, hval]
      simp only [Option.getD_none]
      rw [zero_add]
    | some lr =>
      rw [hs] at hline
      have hline2 : (parsePrice (pricePart lr.1 lr.2)).isSome = true := hline
      cases hpp : parsePrice (pricePart lr.1 lr.2) with
      | none => rw [hpp] at hline2; exact Bool.noConfusion hline2
      | some q =>
        have hstep : calcStep sep acc line = .ok (acc + q) := by
          unfold calcStep
          simp only [hs, hpp]
        have hval : lineVal? sep line = some q := by
          unfold lineVal?
          rw [hs]
          exact hpp
        rw [hstep, exc_bind_ok, ih (acc + q) (fun l hl => hp l (List.mem_cons_of_mem _ hl))]
        rw [List.map_cons, List.sum_cons, hval]
        simp only [Option.getD_some]
        rw [add_assoc]

/-- **C4.**  For every input file, `calculate_total` accumulates a price
only from lines on which splitting by the separator yields exactly two
parts (the separator occurs exactly once); every other line — template
header and footer lines included — contributes nothing (its `lineVal?` is
`none`, counted as `0`), so the returned total renders exactly the sum over
the matching lines.  The hypothesis `lineParses` states that every matching
line's price part parses, i.e. the scan completes (its failure mode is
claim C2). -/
theorem c4_total_sums_matching_lines (fmt : String) (seps : List String) (lines : List String)
    (h1 : getSeparators fmt = .ok seps)
    (h2 : ∀ line ∈ lines, lineParses (joinSp seps) line = true) :
    calcTotal fmt lines =
      .ok ("$" ++ centsRepr (roundHalfEven (scaleCents
        ((lines.map (fun l => (lineVal? (joinSp seps) l).getD 0)).sum)))) := by
  unfold calcTotal
  simp only [h1, exc_bind_ok]
  rw [foldlM_calcStep (joinSp seps) lines 0 h2]
  simp only [exc_bind_ok, zero_add]
  rfl

/-- Witness for C4: decorative template lines interleaved with two valid
entry lines; the total is the sum of just the two prices. -/
theorem c4_total_sums_matching_lines_witness :
    calcTotal "{item} = {price}"
      ["EXPENSE REPORT", "Gum = $1.25\n", "--------------", "Milk = $2.00\n"] = .ok "$3.25" := by
  rw [c4_total_sums_matching_lines "{item} = {price}" ["="]
    ["EXPENSE REPORT", "Gum = $1.25\n", "--------------", "Milk = $2.00\n"]
    (by decide) (by decide)]
  with_unfolding_all rfl

/-! ## Claim C1: separator inference on single-space joined formats -/

theorem rsplitTwo_two_words (a b : List Char)
    (ha : a ≠ []) (haf : ∀ c ∈ a, pyWs c = false)
    (hb : b ≠ []) (hbf : ∀ c ∈ b, pyWs c = false) :
    rsplitTwo (String.mk (a ++ ' ' :: b)) = [String.mk a, String.mk b] := by
  have hrevf : ∀ (w : List Char), (∀ c ∈ w, pyWs c = false) →
      ∀ c ∈ w.reverse, pyWs c = false :=
    fun w hf c hc => hf c (List.mem_reverse.1 hc)
  have hnotq : ∀ (w : List Char), (∀ c ∈ w, pyWs c = false) →
      ∀ c ∈ w.reverse, (!pyWs c) = true := by
    intro w hf c hc
    rw [hf c (List.mem_reverse.1 hc)]
    rfl
  have hbrev_ne : b.reverse ≠ [] := fun h => hb (by simpa using congrArg List.reverse h)
  have harev_ne : a.reverse ≠ [] := fun h => ha (by simpa using congrArg List.reverse h)
  have hrev : (String.mk (a ++ ' ' :: b)).data.reverse = b.reverse ++ ' ' :: a.reverse := by
    show (a ++ ' ' :: b).reverse = _
    rw [List.reverse_append, List.reverse_cons]
    simp [List.append_assoc]
  have h1 : (b.reverse ++ ' ' :: a.reverse).dropWhile pyWs
      = b.reverse ++ ' ' :: a.reverse := by
    cases hbr : b.reverse with
    | nil => exact absurd hbr hbrev_ne
    | cons d rest =>
      rw [List.cons_append, dropWhile_cons_of_neg]
      exact hrevf b hbf d (by rw [hbr]; exact List.mem_cons_self _ _)
  have h2 : (b.reverse ++ ' ' :: a.reverse).takeWhile (fun c => !pyWs c) = b.reverse := by
    rw [takeWhile_append_of_all _ _ (hnotq b hbf),
      takeWhile_cons_of_neg ' ' a.reverse (by decide), List.append_nil]
  have h3 : (b.reverse ++ ' ' :: a.reverse).dropWhile (fun c => !pyWs c)
      = ' ' :: a.reverse := by
    rw [dropWhile_append_of_all _ _ (hnotq b hbf),
      dropWhile_cons_of_neg ' ' a.reverse (by decide)]
  have h4 : (' ' :: a.reverse).dropWhile pyWs = a.reverse := by
    rw [List.dropWhile_cons, if_pos (by decide)]
    cases har : a.reverse with
    | nil => exact absurd har harev_ne
    | cons d rest =>
      rw [dropWhile_cons_of_neg]
      exact hrevf a haf d (by rw [har]; exact List.mem_cons_self _ _)
  have h5 : a.reverse.takeWhile (fun c => !pyWs c) = a.reverse := by
    have h := takeWhile_append_of_all a.reverse [] (hnotq a haf)
    simpa using h
  have h6 : a.reverse.dropWhile (fun c => !pyWs c) = [] := by
    have h := dropWhile_append_of_all a.reverse [] (hnotq a haf)
    simpa using h
  simp only [rsplitTwo, hrev, h1, h2, h3, h4, h5, h6]
  rw [if_neg hbrev_ne, if_neg harev_ne, if_pos (by simp)]
  rw [List.reverse_reverse, List.reverse_reverse]

theorem rsplitTwo_three_words (a b c : List Char)
    (ha : a ≠ []) (haf : ∀ x ∈ a, pyWs x = false)
    (hb : b ≠ []) (hbf : ∀ x ∈ b, pyWs x = false)
    (hc : c ≠ []) (hcf : ∀ x ∈ c, pyWs x = false) :
    rsplitTwo (String.mk (a ++ ' ' :: (b ++ ' ' :: c)))
      = [String.mk a, String.mk b, String.mk c] := by
  have hrevf : ∀ (w : List Char), (∀ x ∈ w, pyWs x = false) →
      ∀ x ∈ w.reverse, pyWs x = false :=
    fun w hf x hx => hf x (List.mem_reverse.1 hx)
  have hnotq : ∀ (w : List Char), (∀ x ∈ w, pyWs x = false) →
      ∀ x ∈ w.reverse, (!pyWs x) = true := by
    intro w hf x hx
    rw [hf x (List.mem_reverse.1 hx)]
    rfl
  have harev_ne : a.reverse ≠ [] := fun h => ha (by simpa using congrArg List.reverse h)
  have hbrev_ne : b.reverse ≠ [] := fun h => hb (by simpa using congrArg List.reverse h)
  have hcrev_ne : c.reverse ≠ [] := fun h => hc (by simpa using congrArg List.reverse h)
  have hrev : (String.mk (a ++ ' ' :: (b ++ ' ' :: c))).data.reverse
      = c.reverse ++ ' ' :: (b.reverse ++ ' ' :: a.reverse) := by
    show (a ++ ' ' :: (b ++ ' ' :: c)).reverse = _
    simp [List.reverse_append, List.reverse_cons, List.append_assoc]
  have h1 : (c.reverse ++ ' ' :: (b.reverse ++ ' ' :: a.reverse)).dropWhile pyWs
      = c.reverse ++ ' ' :: (b.reverse ++ ' ' :: a.reverse) := by
    cases hcr : c.reverse with
    | nil => exact absurd hcr hcrev_ne
    | cons d rest =>
      rw [List.cons_append, dropWhile_cons_of_neg]
      exact hrevf c hcf d (by rw [hcr]; exact List.mem_cons_self _ _)
  have h2 : (c.reverse ++ ' ' :: (b.reverse ++ ' ' :: a.reverse)).takeWhile
      (fun x => !pyWs x) = c.reverse := by
    rw [takeWhile_append_of_all _ _ (hnotq c hcf),
      takeWhile_cons_of_neg ' ' _ (by decide), List.append_nil]
  have h3 : (c.reverse ++ ' ' :: (b.reverse ++ ' ' :: a.reverse)).dropWhile
      (fun x => !pyWs x) = ' ' :: (b.reverse ++ ' ' :: a.reverse) := by
    rw [dropWhile_append_of_all _ _ (hnotq c hcf),
      dropWhile_cons_of_neg ' ' _ (by decide)]
  have h4 : (' ' :: (b.reverse ++ ' ' :: a.reverse)).dropWhile pyWs
      = b.reverse ++ ' ' :: a.reverse := by
    rw [List.dropWhile_cons, if_pos (by decide)]
    cases hbr : b.reverse with
    | nil => exact absurd hbr hbrev_ne
    | cons d rest =>
      rw [List.cons_append, dropWhile_cons_of_neg]
      exact hrevf b hbf d (by rw [hbr]; exact List.mem_cons_self _ _)
  have h5 : (b.reverse ++ ' ' :: a.reverse).takeWhile (fun x => !pyWs x) = b.reverse := by
    rw [takeWhile_append_of_all _ _ (hnotq b hbf),
      takeWhile_cons_of_neg ' ' a.reverse (by decide), List.append_nil]
  have h6 : (b.reverse ++ ' ' :: a.reverse).dropWhile (fun x => !pyWs x)
      = ' ' :: a.reverse := by
    rw [dropWhile_append_of_all _ _ (hnotq b hbf),
      dropWhile_cons_of_neg ' ' a.reverse (by decide)]
  have h7 : (' ' :: a.reverse).dropWhile pyWs = a.reverse := by
    rw [List.dropWhile_cons, if_pos (by decide)]
    cases har : a.reverse with
    | nil => exact absurd har harev_ne
    | cons d rest =>
      rw [dropWhile_cons_of_neg]
      exact hrevf a haf d (by rw [har]; exact List.mem_cons_self _ _)
  simp only [rsplitTwo, hrev, h1, h2, h3, h4, h5, h6, h7]
  rw [if_neg hcrev_ne, if_neg hbrev_ne, if_neg harev_ne]
  rw [List.reverse_reverse, List.reverse_reverse, List.reverse_reverse]

theorem take_indexOf_eq_takeWhile (y : String) :
    ∀ l : List String, l.take (List.indexOf y l) = l.takeWhile (fun w => !(w == y)) := by
  intro l
  induction l with
  | nil => rfl
  | cons a l ih =>
    cases hay : a == y with
    | true =>
      rw [List.indexOf_cons, hay, Bool.cond_true, List.take_zero, List.takeWhile_cons,
        if_neg (by simp [hay])]
    | false =>
      rw [List.indexOf_cons, hay, Bool.cond_false, List.take_succ_cons, List.takeWhile_cons,
        if_pos (by simp [hay]), ih]

theorem slice_eq_wordsBetween :
    ∀ ws : List String, "{item}" ∈ ws → "{price}" ∈ ws →
      ((ws.drop (min (List.indexOf "{item}" ws) (List.indexOf "{price}" ws) + 1)).take
        (max (List.indexOf "{item}" ws) (List.indexOf "{price}" ws)
          - (min (List.indexOf "{item}" ws) (List.indexOf "{price}" ws) + 1)))
      = wordsBetween ws := by
  intro ws
  induction ws with
  | nil => intro h; simp at h
  | cons w ws ih =>
    intro hi hp
    by_cases hwi : w = "{item}"
    · subst hwi
      have hip : "{price}" ∈ ws := by
        rcases List.mem_cons.1 hp with h | h
        · exact absurd h (by decide)
        · exact h
      have e1 : List.indexOf "{item}" ("{item}" :: ws) = 0 := by
        rw [List.indexOf_cons, (by decide : ("{item}" == "{item}") = true), Bool.cond_true]
      have e2 : List.indexOf "{price}" ("{item}" :: ws)
          = List.indexOf "{price}" ws + 1 := by
        rw [List.indexOf_cons, (by decide : ("{item}" == "{price}") = false), Bool.cond_false]
      rw [e1, e2]
      rw [Nat.min_comm, Nat.min_zero, Nat.max_comm, Nat.max_zero]
      simp only [Nat.zero_add, Nat.add_sub_cancel, List.drop_succ_cons, List.drop_zero]
      rw [take_indexOf_eq_takeWhile]
      have hwb : wordsBetween ("{item}" :: ws)
          = ws.takeWhile (fun w => !(w == "{price}")) := by
        unfold wordsBetween
        rw [List.dropWhile_cons, if_neg (by decide)]
        rfl
      rw [hwb]
    · by_cases hwp : w = "{price}"
      · subst hwp
        have hii : "{item}" ∈ ws := by
          rcases List.mem_cons.1 hi with h | h
          · exact absurd h (by decide)
          · exact h
        have e1 : List.indexOf "{price}" ("{price}" :: ws) = 0 := by
          rw [List.indexOf_cons, (by decide : ("{price}" == "{price}") = true), Bool.cond_true]
        have e2 : List.indexOf "{item}" ("{price}" :: ws)
            = List.indexOf "{item}" ws + 1 := by
          rw [List.indexOf_cons, (by decide : ("{price}" == "{item}") = false), Bool.cond_false]
        rw [e1, e2]
        rw [Nat.min_zero, Nat.max_zero]
        simp only [Nat.zero_add, Nat.add_sub_cancel, List.drop_succ_cons, List.drop_zero]
        rw [take_indexOf_eq_takeWhile]
        have hwb : wordsBetween ("{price}" :: ws)
            = ws.takeWhile (fun w => !(w == "{item}")) := by
          unfold wordsBetween
          rw [List.dropWhile_cons, if_neg (by decide)]
          rfl
        rw [hwb]
      · have hii : "{item}" ∈ ws := by
          rcases List.mem_cons.1 hi with h | h
          · exact absurd h.symm hwi
          · exact h
        have hip : "{price}" ∈ ws := by
          rcases List.mem_cons.1 hp with h | h
          · exact absurd h.symm hwp
          · exact h
        have e1 : List.indexOf "{item}" (w :: ws) = List.indexOf "{item}" ws + 1 := by
          have hwb : (w == "{item}") = false := by
            simpa using hwi
          rw [List.indexOf_cons, hwb, Bool.cond_false]
        have e2 : List.indexOf "{price}" (w :: ws) = List.indexOf "{price}" ws + 1 := by
          have hwb : (w == "{price}") = false := by
            simpa using hwp
          rw [List.indexOf_cons, hwb, Bool.cond_false]
        rw [e1, e2, Nat.succ_min_succ, Nat.succ_max_succ]
        have e3 : min (List.indexOf "{item}" ws) (List.indexOf "{price}" ws) + 1 + 1
            = (min (List.indexOf "{item}" ws) (List.indexOf "{price}" ws) + 1) + 1 := rfl
        rw [e3, List.drop_succ_cons]
        have e4 : max (List.indexOf "{item}" ws) (List.indexOf "{price}" ws) + 1
              - (min (List.indexOf "{item}" ws) (List.indexOf "{price}" ws) + 1 + 1)
            = max (List.indexOf "{item}" ws) (List.indexOf "{price}" ws)
              - (min (List.indexOf "{item}" ws) (List.indexOf "{price}" ws) + 1) := by
          omega
        rw [e4, ih hii hip]
        have hwb : wordsBetween (w :: ws) = wordsBetween ws := by
          unfold wordsBetween
          rw [List.dropWhile_cons, if_pos (by simp [hwi, hwp])]
        rw [hwb]

/-- **C1 counterexample.**  `"a {item} = {price}"` contains both
placeholders as whitespace-delimited words, yet `_get_separators` fails:
`rsplit(maxsplit=2)` only detaches the two rightmost words, leaving the
leading chunk `"a {item}"` unsplit, so the membership test for `"{item}"`
fails and the missing-placeholder error is raised instead of `["="]`. -/
theorem c1_counterexample :
    "{item}" ∈ words "a {item} = {price}" ∧
      "{price}" ∈ words "a {item} = {price}" ∧
      getSeparators "a {item} = {price}" = .error .missingPlaceholder := by
  decide

/-- **C1 (amended).**  For a line format that is the single-space join of at
most three nonempty whitespace-free words among which both `"{item}"` and
`"{price}"` occur, `_get_separators` succeeds and returns exactly the words
strictly between the two placeholders, in either placeholder order.  (The
original claim's "any number of literal words" fails: `rsplit(maxsplit=2)`
leaves every word before the last two inside one unsplit chunk, so a format
of four or more words errors — see the counterexample.) -/
theorem data_append_str (s t : String) : (s ++ t).data = s.data ++ t.data := by
  cases s
  cases t
  rfl

theorem c1_separator_between_words (ws : List String)
    (hlen : ws.length = 2 ∨ ws.length = 3)
    (hne : ∀ w ∈ ws, w.data ≠ [])
    (hwf : ∀ w ∈ ws, ∀ c ∈ w.data, pyWs c = false)
    (hi : "{item}" ∈ ws) (hp : "{price}" ∈ ws) :
    getSeparators (joinSp ws) = .ok (wordsBetween ws) := by
  have hrs : rsplitTwo (joinSp ws) = ws := by
    rcases hlen with h2 | h3
    · obtain ⟨a, b, rfl⟩ := List.length_eq_two.1 h2
      have hd : joinSp [a, b] = String.mk (a.data ++ ' ' :: b.data) := by
        refine (string_mk_data _).symm.trans (congrArg String.mk ?_)
        show (a ++ " " ++ b).data = _
        rw [data_append_str, data_append_str, (by decide : " ".data = [' '])]
        simp [List.append_assoc]
      rw [hd, rsplitTwo_two_words a.data b.data
        (hne a (by simp)) (hwf a (by simp)) (hne b (by simp)) (hwf b (by simp))]
    · obtain ⟨a, b, c, rfl⟩ := List.length_eq_three.1 h3
      have hd : joinSp [a, b, c] = String.mk (a.data ++ ' ' :: (b.data ++ ' ' :: c.data)) := by
        refine (string_mk_data _).symm.trans (congrArg String.mk ?_)
        show (a ++ " " ++ (b ++ " " ++ c)).data = _
        rw [data_append_str, data_append_str, data_append_str, data_append_str,
          (by decide : " ".data = [' '])]
        simp [List.append_assoc]
      rw [hd, rsplitTwo_three_words a.data b.data c.data
        (hne a (by simp)) (hwf a (by simp)) (hne b (by simp)) (hwf b (by simp))
        (hne c (by simp)) (hwf c (by simp))]
  simp only [getSeparators, hrs]
  rw [if_pos ⟨hi, hp⟩]
  exact congrArg Except.ok (slice_eq_wordsBetween ws hi hp)

/-- Witness for C1 (amended) at the default format `"{item} = {price}"`:
the inferred separator list is exactly `["="]`. -/
theorem c1_separator_between_words_witness :
    getSeparators "{item} = {price}" = .ok ["="] := by
  have h := c1_separator_between_words ["{item}", "=", "{price}"]
    (by decide) (by decide) (by decide) (by decide) (by decide)
  exact h

/-! ## Claim C8: price-string format and tier bounds -/

theorem cents_facts : ∀ c < 100, (cents c).data.length = 2 ∧
    (∀ ch ∈ (cents c).data, isDig ch = true) ∧ digitsToNat (cents c).data = c := by
  decide

/-- **C8.**  For every tier key and every outcome of the `randint` draws
(`d1 ∈ [1,4]` for `"$"`, `d2 ∈ [5,9]` for `"$$"`, `d3 ∈ [10,25]` for
`"$$$"`, cents draw `c ∈ [0,99]`), `_price` returns the string
`"$" ++ D ++ "." ++ CC` where the dollar amount `D` lies in the key's tier
range and `CC` is exactly two decimal digits denoting `c` (zero-padded
below 10). -/
theorem c8_price_format (key : String) (d1 d2 d3 c : Nat)
    (hk : key = "$" ∨ key = "$$" ∨ key = "$$$")
    (h1 : 1 ≤ d1 ∧ d1 ≤ 4) (h2 : 5 ≤ d2 ∧ d2 ≤ 9) (h3 : 10 ≤ d3 ∧ d3 ≤ 25)
    (hc : c ≤ 99) :
    ∃ D : Nat,
      price key d1 d2 d3 c = some ("$" ++ Nat.repr D ++ "." ++ cents c) ∧
      (key = "$" → 1 ≤ D ∧ D ≤ 4) ∧
      (key = "$$" → 5 ≤ D ∧ D ≤ 9) ∧
      (key = "$$$" → 10 ≤ D ∧ D ≤ 25) ∧
      (cents c).data.length = 2 ∧
      (∀ ch ∈ (cents c).data, isDig ch = true) ∧
      digitsToNat (cents c).data = c := by
  have hcf := cents_facts c (by omega)
  rcases hk with rfl | rfl | rfl
  · exact ⟨d1, by with_unfolding_all rfl, fun _ => h1,
      fun h => absurd h (by decide), fun h => absurd h (by decide),
      hcf.1, hcf.2.1, hcf.2.2⟩
  · exact ⟨d2, by with_unfolding_all rfl, fun h => absurd h (by decide),
      fun _ => h2, fun h => absurd h (by decide),
      hcf.1, hcf.2.1, hcf.2.2⟩
  · exact ⟨d3, by with_unfolding_all rfl, fun h => absurd h (by decide),
      fun h => absurd h (by decide), fun _ => h3,
      hcf.1, hcf.2.1, hcf.2.2⟩

/-- Witness for C8 at tier `"$$"`, draws `(1, 7, 10)` and cents draw 5:
the price renders as `"$7.05"`. -/
theorem c8_price_format_witness :
    ∃ D : Nat,
      price "$$" 1 7 10 5 = some ("$" ++ Nat.repr D ++ "." ++ cents 5) ∧
      (("$$" : String) = "$" → 1 ≤ D ∧ D ≤ 4) ∧
      (("$$" : String) = "$$" → 5 ≤ D ∧ D ≤ 9) ∧
      (("$$" : String) = "$$$" → 10 ≤ D ∧ D ≤ 25) ∧
      (cents 5).data.length = 2 ∧
      (∀ ch ∈ (cents 5).data, isDig ch = true) ∧
      digitsToNat (cents 5).data = 5 :=
  c8_price_format "$$" 1 7 10 5 (Or.inr (Or.inl rfl))
    (by decide) (by decide) (by decide) (by decide)

/-! ## Claim C6: alignment preserves order, pairs, and fixes a common column -/

theorem foldl_max_init_le (l : List Nat) : ∀ a : Nat, a ≤ l.foldl max a := by
  induction l with
  | nil => intro a; exact le_rfl
  | cons x xs ih => intro a; exact le_trans (le_max_left a x) (ih (max a x))

theorem le_foldl_max_of_mem (l : List Nat) : ∀ a x, x ∈ l → x ≤ l.foldl max a := by
  induction l with
  | nil => intro a x hx; simp at hx
  | cons y ys ih =>
    intro a x hx
    rcases List.mem_cons.1 hx with rfl | hx
    · exact le_trans (le_max_right a x) (foldl_max_init_le ys (max a x))
    · exact ih (max a y) x hx

theorem mapM_split_ok (sep : String) :
    ∀ es : List String,
      (∀ e ∈ es, ∃ l r : List Char, pySplitAll sep.data e.data = [l, r]) →
      ∃ pairs : List (List Char × List Char),
        es.mapM (fun e =>
          match pySplitAll sep.data e.data with
          | [l, r] => Except.ok (l, r)
          | _ => (Except.error PyError.valueError : Except PyError (List Char × List Char)))
          = .ok pairs ∧
        pairs.length = es.length ∧
        ∀ p ∈ es.zip pairs, pySplitAll sep.data p.1.data = [p.2.1, p.2.2] := by
  intro es
  induction es with
  | nil =>
    intro hsp
    exact ⟨[], rfl, rfl, by simp⟩
  | cons e es ih =>
    intro hsp
    obtain ⟨l, r, hlr⟩ := hsp e (List.mem_cons_self _ _)
    obtain ⟨pairs, hok, hlen, hzip⟩ := ih (fun x hx => hsp x (List.mem_cons_of_mem _ hx))
    refine ⟨(l, r) :: pairs, ?_, by simp [hlen], ?_⟩
    · rw [List.mapM_cons]
      simp only [hlr, hok, exc_bind_ok]
      rfl
    · intro p hp
      rw [List.zip_cons_cons] at hp
      rcases List.mem_cons.1 hp with rfl | hp
      · exact hlr
      · exact hzip p hp

/-- **C6.**  For every list of entries each of which the trailing separator
word splits into exactly two parts, `_align_separator` succeeds and returns
a list of the same length in the same order in which the separator's first
occurrence sits at one common character column `W` in every entry, and
re-splitting each aligned entry on the separator recovers the same
(item, price) pair up to the surrounding whitespace: the left part gains
only trailing spaces (`strip()`-equal to the original left part) and the
right part is unchanged. -/
theorem c6_align_same_column_same_pairs (fmt sep : String) (seps es : List String)
    (h1 : getSeparators fmt = .ok seps)
    (hlast : seps.getLast? = some sep)
    (hsplit : ∀ e ∈ es, ∃ l r : List Char, pySplitAll sep.data e.data = [l, r]) :
    ∃ (aligned : List String) (W : Nat),
      alignSeparator fmt es = .ok aligned ∧
      aligned.length = es.length ∧
      ∀ p ∈ es.zip aligned,
        ∃ l r pad : List Char,
          pySplitAll sep.data p.1.data = [l, r] ∧
          p.2.data = l ++ pad ++ sep.data ++ r ∧
          (∀ c ∈ pad, c = ' ') ∧
          findOcc sep.data p.2.data = some W ∧
          pySplitAll sep.data p.2.data = [l ++ pad, r] ∧
          stripWsL (l ++ pad) = stripWsL l := by
  have hsepmem : sep ∈ seps :=
    List.mem_of_mem_getLast? (by rw [hlast]; exact Option.mem_some_iff.2 rfl)
  obtain ⟨hne, hwf⟩ := getSeparators_words h1 sep hsepmem
  obtain ⟨pairs, hok, hlen, hzip⟩ := mapM_split_ok sep es hsplit
  refine ⟨pairs.map (fun lr =>
      String.mk (lr.1 ++ List.replicate
        ((((pairs.map Prod.fst).map List.length).foldl max 0) - lr.1.length) ' '
        ++ sep.data ++ lr.2)),
    ((pairs.map Prod.fst).map List.length).foldl max 0, ?_, ?_, ?_⟩
  · simp only [alignSeparator, h1, exc_bind_ok, hlast, hok]
    rfl
  · rw [List.length_map, hlen]
  · intro p hp
    rw [List.zip_map_right] at hp
    obtain ⟨q, hq, rfl⟩ := List.mem_map.1 hp
    obtain ⟨hq1, hq2⟩ := List.of_mem_zip hq
    have hsp := hzip q hq
    obtain ⟨heq, hbef, hrnone⟩ := pySplitAll_eq_pair hne hsp
    have hbef2 : ∀ pp, pp < q.2.1.length →
        leads sep.data ((q.2.1 ++ sep.data ++ q.2.2).drop pp) = false := by
      intro pp hpp
      rw [← heq]
      exact hbef pp hpp
    have hLmem : q.2.1.length ∈ (pairs.map Prod.fst).map List.length :=
      List.mem_map.2 ⟨q.2.1, List.mem_map.2 ⟨q.2, hq2, rfl⟩, rfl⟩
    have hLle : q.2.1.length ≤ ((pairs.map Prod.fst).map List.length).foldl max 0 :=
      le_foldl_max_of_mem _ 0 _ hLmem
    set W := ((pairs.map Prod.fst).map List.length).foldl max 0 with hW
    set pad := List.replicate (W - q.2.1.length) ' ' with hpad
    have hpadws : ∀ c ∈ pad, pyWs c = true := by
      intro c hc
      rw [List.eq_of_mem_replicate hc]
      decide
    have hx : ∀ pp, pp < (q.2.1 ++ pad).length →
        leads sep.data (((q.2.1 ++ pad) ++ sep.data ++ q.2.2).drop pp) = false := by
      by_cases hpadnil : pad = []
      · intro pp hpp
        rw [hpadnil, List.append_nil] at hpp ⊢
        exact hbef2 pp hpp
      · intro pp hpp
        have hlnone : findOcc sep.data q.2.1 = none := findOcc_left_of_pair hne hbef2
        have h := noMatch_padded hne hwf q.2.1 pad (sep.data ++ q.2.2) hlnone hpadws hpadnil
          pp (by rw [List.length_append] at hpp; exact hpp)
        have hassoc : q.2.1 ++ (pad ++ (sep.data ++ q.2.2))
            = ((q.2.1 ++ pad) ++ sep.data) ++ q.2.2 := by
          simp [List.append_assoc]
        rw [hassoc] at h
        exact h
    have hcol : (q.2.1 ++ pad).length = W := by
      rw [List.length_append, hpad, List.length_replicate]
      omega
    refine ⟨q.2.1, q.2.2, pad, hsp, rfl, fun c hc => List.eq_of_mem_replicate hc, ?_, ?_, ?_⟩
    · have h := findOcc_append_self hne (q.2.1 ++ pad) q.2.2 hx
      rw [hcol] at h
      exact h
    · exact pySplitAll_pair hne hx hrnone
    · exact stripWsL_append_ws q.2.1 pad hpadws

/-- Witness for C6: two entries of unequal item length under the default
format; alignment succeeds with the separator at the common column. -/
theorem c6_align_same_column_same_pairs_witness :
    ∃ (aligned : List String) (W : Nat),
      alignSeparator "{item} = {price}" ["Gum = $2.34", "Candy Bar = $1.07"] = .ok aligned ∧
      aligned.length = (["Gum = $2.34", "Candy Bar = $1.07"] : List String).length ∧
      ∀ p ∈ (["Gum = $2.34", "Candy Bar = $1.07"] : List String).zip aligned,
        ∃ l r pad : List Char,
          pySplitAll ("=" : String).data p.1.data = [l, r] ∧
          p.2.data = l ++ pad ++ ("=" : String).data ++ r ∧
          (∀ c ∈ pad, c = ' ') ∧
          findOcc ("=" : String).data p.2.data = some W ∧
          pySplitAll ("=" : String).data p.2.data = [l ++ pad, r] ∧
          stripWsL (l ++ pad) = stripWsL l := by
  refine c6_align_same_column_same_pairs "{item} = {price}" "=" ["="]
    ["Gum = $2.34", "Candy Bar = $1.07"] (by decide) (by decide) ?_
  intro e he
  rcases List.mem_cons.1 he with rfl | he
  · exact ⟨"Gum ".data, " $2.34".data, by decide⟩
  rcases List.mem_cons.1 he with rfl | he
  · exact ⟨"Candy Bar ".data, " $1.07".data, by decide⟩
  · simp at he

/-! ## Claim C3: splitting the written file back into its entry lines -/

theorem splitParts_ge_length {pat : List Char} (hpat : pat ≠ []) :
    ∀ (fuel g : Nat) (s : List Char), s.length ≤ g → g ≤ fuel →
      splitParts pat g s = pySplitAll pat s := by
  intro fuel
  induction fuel with
  | zero =>
    intro g s hsg hg
    have hg0 : g = 0 := Nat.le_zero.1 hg
    subst hg0
    have hs : s = [] := List.eq_nil_of_length_eq_zero (Nat.le_zero.1 hsg)
    subst hs
    rfl
  | succ fuel ih =>
    intro g s hsg hg
    rcases Nat.lt_or_ge g (fuel + 1) with hlt | hge
    · exact ih g s hsg (Nat.lt_succ_iff.1 hlt)
    · have hgeq : g = fuel + 1 := le_antisymm hg hge
      subst hgeq
      cases hf : findOcc pat s with
      | none =>
        rw [splitParts_noOcc hf]
        show _ = splitParts pat s.length s
        rw [splitParts_noOcc hf]
      | some p =>
        have hsne : s ≠ [] := by
          intro h0
          rw [h0, findOcc_nil hpat] at hf
          exact Option.noConfusion hf
        obtain ⟨a, as, rfl⟩ := List.exists_cons_of_ne_nil hsne
        have hpatpos : 1 ≤ pat.length := length_pos_of_ne_nil hpat
        have htail : (((a :: as).drop (p + pat.length)).length ≤ as.length) := by
          rw [List.length_drop]
          simp only [List.length_cons]
          omega
        have hasf : as.length ≤ fuel := by
          simp only [List.length_cons] at hsg
          omega
        rw [splitParts_cons_of_some hf fuel]
        show _ = splitParts pat (a :: as).length (a :: as)
        rw [show (a :: as).length = as.length + 1 from rfl,
          splitParts_cons_of_some hf as.length]
        congr 1
        exact (ih fuel _ (le_trans htail hasf) le_rfl).trans
          (ih as.length _ htail hasf).symm

theorem pySplitAll_break {pat x y : List Char} (hpat : pat ≠ [])
    (hx : ∀ p, p < x.length → leads pat ((x ++ pat ++ y).drop p) = false) :
    pySplitAll pat (x ++ pat ++ y) = x :: pySplitAll pat y := by
  have hocc : findOcc pat (x ++ pat ++ y) = some x.length := findOcc_append_self hpat x y hx
  have hpatpos : 1 ≤ pat.length := length_pos_of_ne_nil hpat
  obtain ⟨m, hm⟩ : ∃ m, (x ++ pat ++ y).length = m + 1 := by
    refine ⟨(x ++ pat ++ y).length - 1, ?_⟩
    simp only [List.length_append]
    omega
  show splitParts pat (x ++ pat ++ y).length (x ++ pat ++ y) = _
  rw [hm, splitParts_cons_of_some hocc m]
  congr 1
  · rw [List.append_assoc]
    exact List.take_left x (pat ++ y)
  · have hdrop : (x ++ pat ++ y).drop (x.length + pat.length) = y := by
      rw [show x.length + pat.length = (x ++ pat).length from (List.length_append x pat).symm]
      exact List.drop_left (x ++ pat) y
    rw [hdrop]
    apply splitParts_ge_length hpat m m y _ le_rfl
    simp only [List.length_append] at hm
    omega

theorem leads_single_head (c : Char) : ∀ l : List Char, leads [c] l = true → l.head? = some c := by
  intro l h
  cases l with
  | nil => exact absurd h (by rw [leads_nil_right (by simp)]; simp)
  | cons a as =>
    simp only [leads, Bool.and_eq_true, decide_eq_true_eq] at h
    rw [h.1]
    rfl

theorem no_occ_prefix_single (c : Char) (x y : List Char) (hx : c ∉ x) :
    ∀ p, p < x.length → leads [c] ((x ++ [c] ++ y).drop p) = false := by
  intro p hp
  cases hld : leads [c] ((x ++ [c] ++ y).drop p) with
  | false => rfl
  | true =>
    exfalso
    have hh := leads_single_head c _ hld
    rw [List.head?_drop, List.append_assoc, List.getElem?_append_left hp] at hh
    exact hx (List.getElem?_mem hh)

theorem findOcc_single_not_mem (c : Char) (s : List Char) (h : c ∉ s) :
    findOcc [c] s = none := by
  rw [findOcc_none_iff (by simp) s]
  intro p
  cases hld : leads [c] (s.drop p) with
  | false => rfl
  | true =>
    exfalso
    have hh := leads_single_head c _ hld
    rw [List.head?_drop] at hh
    exact h (List.getElem?_mem hh)

theorem pySplitAll_joinNl :
    ∀ es : List String, es ≠ [] → (∀ e ∈ es, '\n' ∉ e.data) →
      pySplitAll ['\n'] (joinNl es).data = es.map String.data := by
  intro es
  induction es with
  | nil => intro h; exact absurd rfl h
  | cons e es ih =>
    intro _ hnl
    cases es with
    | nil =>
      show pySplitAll ['\n'] e.data = [e.data]
      exact splitParts_noOcc (findOcc_single_not_mem '\n' e.data (hnl e (by simp))) _
    | cons e2 es2 =>
      have hdata : (joinNl (e :: e2 :: es2)).data
          = e.data ++ ['\n'] ++ (joinNl (e2 :: es2)).data := by
        show (e ++ "\n" ++ joinNl (e2 :: es2)).data = _
        rw [data_append_str, data_append_str, (by decide : ("\n" : String).data = ['\n'])]
      rw [hdata,
        pySplitAll_break (by simp) (no_occ_prefix_single '\n' e.data _ (hnl e (by simp))),
        ih (by simp) (fun x hx => hnl x (List.mem_cons_of_mem _ hx))]
      rfl

theorem fmtSM_normal_open (fields : List (String × String)) (rest : List Char) :
    fmtSM fields .normal ('{' :: rest) = fmtSM fields .openB rest := by
  conv_lhs => unfold fmtSM
  rw [if_pos rfl]

theorem fmtSM_normal_lit (fields : List (String × String)) (c : Char) (rest : List Char)
    (h1 : c ≠ '{') (h2 : c ≠ '}') :
    fmtSM fields .normal (c :: rest) = (fmtSM fields .normal rest).map (fun t => c :: t) := by
  conv_lhs => unfold fmtSM
  rw [if_neg h1, if_neg h2]

theorem fmtSM_openB_field (fields : List (String × String)) (c : Char) (rest : List Char)
    (h1 : c ≠ '{') (h2 : c ≠ '}') :
    fmtSM fields .openB (c :: rest) = fmtSM fields (.field [c]) rest := by
  conv_lhs => unfold fmtSM
  rw [if_neg h1, if_neg h2]

theorem fmtSM_field_aux (fields : List (String × String)) :
    ∀ (todo acc rest : List Char), (∀ c ∈ todo, c ≠ '}') →
      fmtSM fields (.field acc) (todo ++ '}' :: rest)
        = match List.lookup (String.mk (acc.reverse ++ todo)) fields with
          | some v => (fmtSM fields .normal rest).map (fun t => v.data ++ t)
          | none => .error .keyError := by
  intro todo
  induction todo with
  | nil =>
    intro acc rest _
    show fmtSM fields (.field acc) ('}' :: rest) = _
    conv_lhs => unfold fmtSM
    rw [if_pos rfl, List.append_nil]
  | cons c todo ih =>
    intro acc rest hnb
    show fmtSM fields (.field acc) (c :: (todo ++ '}' :: rest)) = _
    conv_lhs => unfold fmtSM
    rw [if_neg (hnb c (by simp))]
    rw [ih (c :: acc) rest (fun d hd => hnb d (by simp [hd]))]
    have hk : (c :: acc).reverse ++ todo = acc.reverse ++ c :: todo := by
      rw [List.reverse_cons]
      simp [List.append_assoc]
    rw [hk]

theorem fmtSM_field_start (fields : List (String × String)) (name v : String)
    (hlook : List.lookup name fields = some v)
    (hnb : ∀ c ∈ name.data, c ≠ '{' ∧ c ≠ '}')
    (hne : name.data ≠ []) (rest : List Char) :
    fmtSM fields .normal ('{' :: (name.data ++ '}' :: rest))
      = (fmtSM fields .normal rest).map (fun t => v.data ++ t) := by
  obtain ⟨c, cs, hcs⟩ := List.exists_cons_of_ne_nil hne
  have hc := hnb c (by rw [hcs]; simp)
  rw [fmtSM_normal_open, hcs, List.cons_append,
    fmtSM_openB_field fields c _ hc.1 hc.2,
    fmtSM_field_aux fields cs [c] rest
      (fun d hd => (hnb d (by rw [hcs]; simp [hd])).2)]
  have hk : ([c] : List Char).reverse ++ cs = name.data := by rw [hcs]; rfl
  rw [hk, string_mk_data, hlook]

theorem fmtSM_lit (fields : List (String × String)) :
    ∀ (mid rest : List Char), (∀ c ∈ mid, c ≠ '{' ∧ c ≠ '}') →
      fmtSM fields .normal (mid ++ rest)
        = (fmtSM fields .normal rest).map (fun t => mid ++ t) := by
  intro mid
  induction mid with
  | nil =>
    intro rest _
    rw [List.nil_append]
    cases h : fmtSM fields .normal rest with
    | ok t => rfl
    | error e => rfl
  | cons c mid ih =>
    intro rest hnb
    rw [List.cons_append, fmtSM_normal_lit fields c _ (hnb c (by simp)).1 (hnb c (by simp)).2,
      ih rest (fun d hd => hnb d (by simp [hd]))]
    cases h : fmtSM fields .normal rest with
    | ok t => rfl
    | error e => rfl

theorem pyFormat_report (v : String) :
    pyFormatFields [("report", v)] "{report}" = .ok v := by
  unfold pyFormatFields
  rw [(by decide : ("{report}" : String).data = '{' :: (("report" : String).data ++ '}' :: [])),
    fmtSM_field_start [("report", v)] "report" v rfl (by decide) (by decide) []]
  show Except.ok (String.mk (v.data ++ [])) = _
  rw [List.append_nil, string_mk_data]

theorem pyFormat_item_w_price (w item priceS : String)
    (hwb : ∀ c ∈ w.data, c ≠ '{' ∧ c ≠ '}') :
    pyFormatFields [("item", item), ("price", priceS)]
        (String.mk ("{item}".data ++ ' ' :: (w.data ++ ' ' :: "{price}".data)))
      = .ok (String.mk (item.data ++ ' ' :: (w.data ++ ' ' :: priceS.data))) := by
  unfold pyFormatFields
  show (fmtSM [("item", item), ("price", priceS)] .normal
      ("{item}".data ++ ' ' :: (w.data ++ ' ' :: "{price}".data))).map String.mk = _
  have hL : ("{item}" : String).data ++ ' ' :: (w.data ++ ' ' :: ("{price}" : String).data)
      = '{' :: (("item" : String).data ++ '}' ::
          ((' ' :: (w.data ++ [' '])) ++ ('{' :: (("price" : String).data ++ '}' :: [])))) := by
    rw [(by decide : ("{item}" : String).data = '{' :: (("item" : String).data ++ ['}'])),
      (by decide : ("{price}" : String).data = '{' :: (("price" : String).data ++ ['}']))]
    simp [List.append_assoc]
  have hlook1 : List.lookup "item" [("item", item), ("price", priceS)] = some item := by
    with_unfolding_all rfl
  have hlook2 : List.lookup "price" [("item", item), ("price", priceS)] = some priceS := by
    with_unfolding_all rfl
  rw [hL, fmtSM_field_start _ "item" item hlook1 (by decide) (by decide) _]
  rw [fmtSM_lit _ (' ' :: (w.data ++ [' '])) _ ?hmid]
  case hmid =>
    intro d hd
    rcases List.mem_cons.1 hd with rfl | hd
    · exact ⟨by decide, by decide⟩
    rcases List.mem_append.1 hd with hd | hd
    · exact hwb d hd
    · rw [List.mem_singleton.1 hd]
      exact ⟨by decide, by decide⟩
  rw [fmtSM_field_start _ "price" priceS hlook2 (by decide) (by decide) []]
  show Except.ok (String.mk (item.data ++ ((' ' :: (w.data ++ [' '])) ++ (priceS.data ++ [])))) = _
  have hEq : item.data ++ ((' ' :: (w.data ++ [' '])) ++ (priceS.data ++ []))
      = item.data ++ ' ' :: (w.data ++ ' ' :: priceS.data) := by
    simp [List.append_assoc]
  rw [hEq]

theorem mapM_format_draws (w : String) (hwb : ∀ c ∈ w.data, c ≠ '{' ∧ c ≠ '}') :
    ∀ draws : List (String × String),
      draws.mapM (fun d => pyFormatFields [("item", d.1), ("price", d.2)]
          (String.mk ("{item}".data ++ ' ' :: (w.data ++ ' ' :: "{price}".data))))
        = .ok (draws.map (fun d =>
            String.mk (d.1.data ++ ' ' :: (w.data ++ ' ' :: d.2.data)))) := by
  intro draws
  induction draws with
  | nil => rfl
  | cons d ds ih =>
    rw [List.mapM_cons]
    simp only [pyFormat_item_w_price w d.1 d.2 hwb, ih, exc_bind_ok]
    rfl

theorem getSeparators_item_w_price (w : String) (hwne : w.data ≠ [])
    (hwf : ∀ c ∈ w.data, pyWs c = false) (hwp : (w == "{price}") = false) :
    getSeparators (String.mk ("{item}".data ++ ' ' :: (w.data ++ ' ' :: "{price}".data)))
      = .ok [w] := by
  have hrs : rsplitTwo (String.mk ("{item}".data ++ ' ' :: (w.data ++ ' ' :: "{price}".data)))
      = ["{item}", w, "{price}"] := by
    rw [rsplitTwo_three_words "{item}".data w.data "{price}".data
      (by decide) (by decide) hwne hwf (by decide) (by decide)]
  simp only [getSeparators, hrs]
  rw [if_pos ⟨List.mem_cons_self _ _, by simp⟩]
  have e1 : List.indexOf "{item}" ["{item}", w, "{price}"] = 0 := by
    rw [List.indexOf_cons, (by decide : (("{item}" : String) == "{item}") = true),
      Bool.cond_true]
  have e2 : List.indexOf "{price}" ["{item}", w, "{price}"] = 2 := by
    rw [List.indexOf_cons, (by decide : (("{item}" : String) == "{price}") = false),
      Bool.cond_false, List.indexOf_cons, hwp, Bool.cond_false, List.indexOf_cons,
      (by decide : (("{price}" : String) == "{price}") = true), Bool.cond_true]
  rw [e1, e2]
  simp

theorem startsDollar_append_space (a : List Char) (h : a.head? ≠ some '$') :
    startsDollar (String.mk (a ++ [' '])) = false := by
  cases a with
  | nil => rfl
  | cons c cs =>
    show startsDollar (String.mk (c :: (cs ++ [' ']))) = false
    have hc : c ≠ '$' := fun hc0 => h (by rw [hc0]; rfl)
    unfold startsDollar
    simp [hc]

theorem lineParses_of_val {sep line : String} {q : ℚ} (h : lineVal? sep line = some q) :
    lineParses sep line = true := by
  unfold lineVal? at h
  unfold lineParses
  cases hs : pySplit2? sep line with
  | none => rfl
  | some lr =>
    rw [hs] at h
    have h2 : parsePrice (pricePart lr.1 lr.2) = some q := h
    show (parsePrice (pricePart lr.1 lr.2)).isSome = true
    rw [h2]
    rfl

theorem pySplit2_item_w_price (w : String) (hwne : w.data ≠ [])
    (hwf : ∀ c ∈ w.data, pyWs c = false) (a b : List Char)
    (hfi : findOcc w.data a = none) (hfp : findOcc w.data b = none) :
    pySplit2? w (String.mk (a ++ ' ' :: (w.data ++ ' ' :: b)))
      = some (String.mk (a ++ [' ']), String.mk (' ' :: b)) := by
  have hy : findOcc w.data (' ' :: b) = none :=
    noOcc_ws_cons hwne hwf ' ' (by decide) hfp
  have hx : ∀ p, p < (a ++ [' ']).length →
      leads w.data (((a ++ [' ']) ++ w.data ++ (' ' :: b)).drop p) = false := by
    intro p hp
    have h := noMatch_padded hwne hwf a [' '] (w.data ++ ' ' :: b)
      hfi (by intro c hc; rw [List.mem_singleton.1 hc]; decide) (by simp)
      p (by simpa [List.length_append] using hp)
    have hassoc : a ++ ([' '] ++ (w.data ++ ' ' :: b))
        = ((a ++ [' ']) ++ w.data) ++ (' ' :: b) := by
      simp [List.append_assoc]
    rw [hassoc] at h
    exact h
  have hsp := pySplitAll_pair hwne hx hy
  unfold pySplit2?
  rw [if_neg hwne]
  have hL : a ++ ' ' :: (w.data ++ ' ' :: b)
      = (a ++ [' ']) ++ w.data ++ (' ' :: b) := by
    simp [List.append_assoc]
  show (match pySplitAll w.data (a ++ ' ' :: (w.data ++ ' ' :: b)) with
    | [l, r] => some (String.mk l, String.mk r)
    | _ => none) = _
  rw [hL, hsp]

theorem lineVal_item_w_price (w : String) (hwne : w.data ≠ [])
    (hwf : ∀ c ∈ w.data, pyWs c = false) (a b : String)
    (hfi : findOcc w.data a.data = none) (hfp : findOcc w.data b.data = none)
    (hhd : a.data.head? ≠ some '$') :
    lineVal? w (String.mk (a.data ++ ' ' :: (w.data ++ ' ' :: b.data))) = parsePrice b := by
  unfold lineVal?
  rw [pySplit2_item_w_price w hwne hwf a.data b.data hfi hfp, Option.some_bind]
  show parsePrice (pricePart (String.mk (a.data ++ [' '])) (String.mk (' ' :: b.data))) = _
  unfold pricePart
  rw [startsDollar_append_space a.data hhd, if_neg (by simp)]
  exact parsePrice_ws_cons ' ' (by decide) b

set_option maxHeartbeats 1600000 in
theorem generateContent_report (w : String) (hwb : ∀ c ∈ w.data, c ≠ '{' ∧ c ≠ '}')
    (inv : List (String × List String)) (K : Nat) (now : String)
    (draws : List (String × String)) :
    generateContent ⟨inv, K, false,
        String.mk ("{item}".data ++ ' ' :: (w.data ++ ' ' :: "{price}".data)), ["{report}"]⟩
        draws [] now
      = .ok (joinNl (draws.map (fun d =>
          String.mk (d.1.data ++ ' ' :: (w.data ++ ' ' :: d.2.data))))) := by
  have h1 : generateContent ⟨inv, K, false,
      String.mk ("{item}".data ++ ' ' :: (w.data ++ ' ' :: "{price}".data)), ["{report}"]⟩
      draws [] now
      = pyFormatFields [("report", joinNl (draws.map (fun d =>
          String.mk (d.1.data ++ ' ' :: (w.data ++ ' ' :: d.2.data)))))] "{report}" := by
    unfold generateContent
    rw [mapM_format_draws w hwb draws]
    rfl
  rw [h1, pyFormat_report]

theorem calcTotal_sum_lemma (fmt : String) (seps : List String) (lines : List String)
    (h1 : getSeparators fmt = .ok seps)
    (h2 : ∀ line ∈ lines, lineParses (joinSp seps) line = true) :
    calcTotal fmt lines =
      .ok ("$" ++ centsRepr (roundHalfEven (scaleCents
        ((lines.map (fun l => (lineVal? (joinSp seps) l).getD 0)).sum)))) := by
  unfold calcTotal
  simp only [h1, exc_bind_ok]
  rw [foldlM_calcStep (joinSp seps) lines 0 h2]
  simp only [exc_bind_ok, zero_add]
  rfl

/-- **C3 counterexample.**  With the placeholders separated only by
whitespace (`"{item} {price}"`, a format the claim covers), generation
succeeds and writes the entry with its real price, but the inferred
separator list is empty, `''.join` gives the empty separator, `split('')`
raises the caught `ValueError` on every line, and the total comes back
`"$0.0"` instead of the synthesized `$2.34`. -/
theorem c3_counterexample :
    generateContent ⟨[], 1, false, "{item} {price}", ["{report}"]⟩
        [("Gum", "$2.34")] [] "today" = .ok "Gum $2.34" ∧
      calcTotal "{item} {price}" (linesOf "Gum $2.34") = .ok "$0.0" ∧
      parsePrice "$2.34" = some (mkRat 234 100) ∧
      ("$0.0" : String) ≠ "$2.34" := by
  refine ⟨?_, ?_, ?_, by decide⟩
  · with_unfolding_all rfl
  · with_unfolding_all rfl
  · with_unfolding_all rfl

/-- **C3 (amended).**  Round-trip for an engine with `auto_align = false`,
the template reduced to the `{report}` placeholder, and a line format
`"{item} w {price}"` whose single separator word `w` is nonempty,
whitespace-free and brace-free: if no draw's item or price contains the
separator word or a newline, no item starts with `'$'`, and every drawn
price parses as a number, then generation succeeds and `calculate_total`
over the produced file returns exactly the sum of the synthesized prices,
rounded half-to-even to 2 decimals and rendered Python-style.  (The
original claim fails when the placeholders are adjacent — the separator
list is empty and every line is skipped, see the counterexample.) -/
theorem c3_roundtrip_total (w : String) (inv : List (String × List String))
    (now : String) (draws : List (String × String))
    (hwne : w.data ≠ [])
    (hwf : ∀ c ∈ w.data, pyWs c = false)
    (hwb : ∀ c ∈ w.data, c ≠ '{' ∧ c ≠ '}')
    (hd : ∀ d ∈ draws,
      findOcc w.data d.1.data = none ∧ findOcc w.data d.2.data = none ∧
      '\n' ∉ d.1.data ∧ '\n' ∉ d.2.data ∧
      d.1.data.head? ≠ some '$' ∧ (parsePrice d.2).isSome = true) :
    ∃ content : String,
      generateContent ⟨inv, draws.length, false,
          String.mk ("{item}".data ++ ' ' :: (w.data ++ ' ' :: "{price}".data)),
          ["{report}"]⟩ draws [] now = .ok content ∧
      calcTotal (String.mk ("{item}".data ++ ' ' :: (w.data ++ ' ' :: "{price}".data)))
          (linesOf content)
        = .ok ("$" ++ centsRepr (roundHalfEven (scaleCents
            ((draws.map (fun d => (parsePrice d.2).getD 0)).sum)))) := by
  have hwp : (w == "{price}") = false := by
    cases hb : w == "{price}" with
    | false => rfl
    | true =>
      exfalso
      have hweq : w = "{price}" := by simpa using hb
      exact (hwb '{' (by rw [hweq]; decide)).1 rfl
  have hsep := getSeparators_item_w_price w hwne hwf hwp
  refine ⟨_, generateContent_report w hwb inv draws.length now draws, ?_⟩
  rcases draws with _ | ⟨d0, ds⟩
  · have h0 : lineVal? (joinSp [w]) "" = none := by
      show lineVal? w "" = none
      unfold lineVal?
      have hs0 : pySplit2? w "" = none := by
        unfold pySplit2?
        rw [if_neg hwne]
        with_unfolding_all rfl
      rw [hs0]
      rfl
    have hlp : ∀ line ∈ ([""] : List String), lineParses (joinSp [w]) line = true := by
      intro line hl
      rw [List.mem_singleton.1 hl]
      show lineParses w "" = true
      unfold lineParses
      have hs0 : pySplit2? w "" = none := by
        unfold pySplit2?
        rw [if_neg hwne]
        with_unfolding_all rfl
      rw [hs0]
    have hli : linesOf (joinNl (List.map (fun d =>
        String.mk (d.1.data ++ ' ' :: (w.data ++ ' ' :: d.2.data)))
        ([] : List (String × String)))) = [""] := rfl
    rw [hli, calcTotal_sum_lemma _ [w] _ hsep hlp]
    have hz : ((([""] : List String).map
        (fun l => (lineVal? (joinSp [w]) l).getD 0)).sum : ℚ) = 0 := by
      simp [h0]
    rw [hz]
    rfl
  · have hnlAll : ∀ e ∈ (d0 :: ds).map (fun d =>
        String.mk (d.1.data ++ ' ' :: (w.data ++ ' ' :: d.2.data))), '\n' ∉ e.data := by
      intro e he
      obtain ⟨d, hdm, rfl⟩ := List.mem_map.1 he
      obtain ⟨hfi, hfp, hn1, hn2, hhd, hps⟩ := hd d hdm
      intro hmem
      have hmem2 : '\n' ∈ d.1.data ++ ' ' :: (w.data ++ ' ' :: d.2.data) := hmem
      rcases List.mem_append.1 hmem2 with h | h
      · exact hn1 h
      rcases List.mem_cons.1 h with h | h
      · exact absurd h (by decide)
      rcases List.mem_append.1 h with h | h
      · exact absurd (hwf '\n' h) (by decide)
      rcases List.mem_cons.1 h with h | h
      · exact absurd h (by decide)
      · exact hn2 h
    have hlines : linesOf (joinNl ((d0 :: ds).map (fun d =>
        String.mk (d.1.data ++ ' ' :: (w.data ++ ' ' :: d.2.data)))))
        = (d0 :: ds).map (fun d =>
            String.mk (d.1.data ++ ' ' :: (w.data ++ ' ' :: d.2.data))) := by
      unfold linesOf
      rw [pySplitAll_joinNl _ (by simp) hnlAll, List.map_map]
      have hcomp : ∀ e ∈ (d0 :: ds).map (fun d =>
          String.mk (d.1.data ++ ' ' :: (w.data ++ ' ' :: d.2.data))),
          (String.mk ∘ String.data) e = id e := fun e _ => string_mk_data e
      rw [List.map_congr_left hcomp, List.map_id]
    have hval : ∀ d ∈ (d0 :: ds),
        lineVal? (joinSp [w])
          (String.mk (d.1.data ++ ' ' :: (w.data ++ ' ' :: d.2.data))) = parsePrice d.2 := by
      intro d hdm
      obtain ⟨hfi, hfp, hn1, hn2, hhd, hps⟩ := hd d hdm
      show lineVal? w _ = _
      exact lineVal_item_w_price w hwne hwf d.1 d.2 hfi hfp hhd
    have hlp : ∀ line ∈ (d0 :: ds).map (fun d =>
        String.mk (d.1.data ++ ' ' :: (w.data ++ ' ' :: d.2.data))),
        lineParses (joinSp [w]) line = true := by
      intro line hl
      obtain ⟨d, hdm, rfl⟩ := List.mem_map.1 hl
      obtain ⟨hfi, hfp, hn1, hn2, hhd, hps⟩ := hd d hdm
      obtain ⟨q, hq⟩ := Option.isSome_iff_exists.1 hps
      exact lineParses_of_val (by rw [hval d hdm]; exact hq)
    rw [hlines, calcTotal_sum_lemma _ [w] _ hsep hlp]
    have hsum : ((d0 :: ds).map (fun d =>
        String.mk (d.1.data ++ ' ' :: (w.data ++ ' ' :: d.2.data)))).map
          (fun l => (lineVal? (joinSp [w]) l).getD 0)
        = (d0 :: ds).map (fun d => (parsePrice d.2).getD 0) := by
      rw [List.map_map]
      refine List.map_congr_left ?_
      intro d hdm
      show (lineVal? (joinSp [w])
        (String.mk (d.1.data ++ ' ' :: (w.data ++ ' ' :: d.2.data)))).getD 0 = _
      rw [hval d hdm]
    rw [hsum]

/-- Witness for C3 (amended): one draw `("Gum", "$2.34")` with separator
word `"="`; the report round-trips to that single price. -/
theorem c3_roundtrip_total_witness :
    ∃ content : String,
      generateContent ⟨[], 1, false,
          String.mk ("{item}".data ++ ' ' :: (("=" : String).data ++ ' ' :: "{price}".data)),
          ["{report}"]⟩ [("Gum", "$2.34")] [] "today" = .ok content ∧
      calcTotal (String.mk ("{item}".data ++ ' ' :: (("=" : String).data ++ ' ' :: "{price}".data)))
          (linesOf content)
        = .ok ("$" ++ centsRepr (roundHalfEven (scaleCents
            ((([("Gum", "$2.34")] : List (String × String)).map
              (fun d => (parsePrice d.2).getD 0)).sum)))) := by
  refine c3_roundtrip_total "=" [] "today" [("Gum", "$2.34")] (by decide) (by decide)
    (by decide) ?_
  intro d hdm
  rw [List.mem_singleton.1 hdm]
  refine ⟨by decide, by decide, by decide, by decide, by decide, ?_⟩
  rw [(by with_unfolding_all rfl : parsePrice "$2.34" = some (mkRat 234 100))]
  rfl
